import Mathlib

/-!
Verification of the part12 in-memory full-text search engine
(`src/part12/models.py`): normalization/stemming pipeline, inverted-index
construction and lookup, result combination, boolean search and
span-merge highlighting.

Strings are modelled as `List Char`; Python dictionaries (which preserve
insertion order) are modelled as association lists with in-place update.
-/

namespace Part12

/-! ### Association lists (insertion-ordered dictionaries) -/

/-- First-match lookup in an association list, like `d[k]` / `k in d`. -/
def alookup {κ α : Type} [DecidableEq κ] : List (κ × α) → κ → Option α
  | [], _ => none
  | (k, v) :: rest, k0 => if k0 = k then some v else alookup rest k0

/-- `d[k] = f (d[k] if k in d else dflt)`: update in place when the key is
present (keeping its position, as Python dicts do), else append at the end. -/
def aupd {κ α : Type} [DecidableEq κ] : List (κ × α) → κ → α → (α → α) → List (κ × α)
  | [], k, dflt, f => [(k, f dflt)]
  | (k1, v) :: rest, k, dflt, f =>
    if k = k1 then (k1, f v) :: rest else (k1, v) :: aupd rest k dflt f

/-- `d[k] = f d[k] if k in d else v`: combine with the present value, or
insert `v` at the end when the key is absent. -/
def aupdOr {κ α : Type} [DecidableEq κ] : List (κ × α) → κ → α → (α → α) → List (κ × α)
  | [], k, v, _ => [(k, v)]
  | (k1, w) :: rest, k, v, f =>
    if k = k1 then (k1, f w) :: rest else (k1, w) :: aupdOr rest k v f

/-- `d[k] = v`: insert-or-overwrite, keeping the key's original position. -/
def aset {κ α : Type} [DecidableEq κ] (m : List (κ × α)) (k : κ) (v : α) : List (κ × α) :=
  aupd m k v (fun _ => v)

/-! ### Stable insertion sort, modelling Python's `sorted` -/

/-- Insert `x` after every element `y` with `le y x` (stable placement). -/
def insLe {α : Type} (le : α → α → Bool) (x : α) : List α → List α
  | [] => [x]
  | y :: ys => if le y x then y :: insLe le x ys else x :: y :: ys

/-- Stable sort with respect to the boolean total preorder `le`,
processing elements left to right like Python's `sorted`. -/
def isortLe {α : Type} (le : α → α → Bool) (l : List α) : List α :=
  l.foldl (fun acc x => insLe le x acc) []

/-! ### Characters and strings -/

/-- Convert a string literal to the `List Char` representation. -/
def strToL (s : String) : List Char := s.toList

/-- Lexicographic comparison of strings by code point, as Python compares
`str` values. -/
def lexLe : List Char → List Char → Bool
  | [], _ => true
  | _ :: _, [] => false
  | a :: as, b :: bs =>
    if a.toNat < b.toNat then true
    else if b.toNat < a.toNat then false
    else lexLe as bs

/-- Python `\S` / `str.split()` whitespace set (ASCII part; the corpus and
queries contain only these). -/
def isWs (c : Char) : Bool :=
  c = Char.ofNat 32 || c = Char.ofNat 9 || c = Char.ofNat 10 ||
  c = Char.ofNat 13 || c = Char.ofNat 11 || c = Char.ofNat 12

/-- Does `w` end with the suffix `suf` (Python `str.endswith`)? -/
def endsWithL (w suf : List Char) : Bool := List.isSuffixOf suf w

/-- Drop the last `k` characters: Python `w[:-k]`. -/
def dropLastN (w : List Char) (k : Nat) : List Char := w.take (w.length - k)

/-! ### Normalizer / stemmer (`normalize`, `PorterStemmer.stem`, `stem`) -/

/-- `normalize`: remove every apostrophe, comma and period, then lowercase
(`token.replace(...).lower()`). -/
def normalize (token : List Char) : List Char :=
  ((((token.filter (fun c => c ≠ Char.ofNat 39)).filter
      (fun c => c ≠ Char.ofNat 44)).filter
      (fun c => c ≠ Char.ofNat 46)).map Char.toLower)

/-- Step 1a of `PorterStemmer.stem`: plural forms. -/
def step1a (w : List Char) : List Char :=
  if endsWithL w (strToL "sses") then dropLastN w 2
  else if endsWithL w (strToL "ies") then dropLastN w 2
  else if endsWithL w (strToL "ss") then w
  else if endsWithL w (strToL "s") then dropLastN w 1
  else w

/-- Step 1b of `PorterStemmer.stem`: past tense and gerunds, with the
source's nested length guards. -/
def step1b (w : List Char) : List Char :=
  if endsWithL w (strToL "eed") then (if w.length > 4 then dropLastN w 1 else w)
  else if endsWithL w (strToL "ed") then (if w.length > 4 then dropLastN w 2 else w)
  else if endsWithL w (strToL "ing") then (if w.length > 5 then dropLastN w 3 else w)
  else w

/-- Step 2 of `PorterStemmer.stem`: common derivational suffixes. -/
def step2 (w : List Char) : List Char :=
  if endsWithL w (strToL "ational") then dropLastN w 5 ++ strToL "e"
  else if endsWithL w (strToL "tion") then dropLastN w 4 ++ strToL "t"
  else if endsWithL w (strToL "ness") then dropLastN w 4
  else if endsWithL w (strToL "ment") then dropLastN w 4
  else if endsWithL w (strToL "able") then dropLastN w 4
  else if endsWithL w (strToL "ible") then dropLastN w 4
  else if endsWithL w (strToL "ful") then dropLastN w 3
  else if endsWithL w (strToL "ous") then dropLastN w 3
  else if endsWithL w (strToL "ive") then dropLastN w 3
  else if endsWithL w (strToL "ly") then dropLastN w 2
  else w

/-- `PorterStemmer.stem`: lowercase, then the three suffix-stripping steps. -/
def porterStem (word : List Char) : List Char :=
  step2 (step1b (step1a (word.map Char.toLower)))

/-- Module-level `stem`: normalize then stem. -/
def stem (token : List Char) : List Char := porterStem (normalize token)

/-! ### Tokenizer (`Index.tokenize`, `str.split`) -/

/-- Worker for `tokenize`: scan the characters at index `i`, carrying the
start index and reversed characters of the token currently being read. -/
def tokenizeGo : List Char → Nat → Option (Nat × List Char) → List (List Char × Nat)
  | [], _, none => []
  | [], _, some (s, acc) => [(acc.reverse, s)]
  | c :: cs, i, none =>
    if isWs c then tokenizeGo cs (i + 1) none
    else tokenizeGo cs (i + 1) (some (i, [c]))
  | c :: cs, i, some (s, acc) =>
    if isWs c then (acc.reverse, s) :: tokenizeGo cs (i + 1) none
    else tokenizeGo cs (i + 1) (some (s, c :: acc))

/-- `Index.tokenize`: the maximal runs of non-whitespace characters
(`re.finditer(r"\S+", text)`), each with its start offset. -/
def tokenize (text : List Char) : List (List Char × Nat) := tokenizeGo text 0 none

/-- Python `query.split()`: the tokens without their offsets. -/
def splitWs (text : List Char) : List (List Char) := (tokenize text).map Prod.fst

/-! ### Data model -/

/-- A document: integer id, title and 1-indexed lines (`Sonnet`).  The id
is taken as an explicit field (the source parses it out of the title). -/
structure Sonnet where
  id : Nat
  title : List Char
  lines : List (List Char)
deriving DecidableEq, Repr

/-- One recorded occurrence of a token: `line_no` is `none` for the title,
`position` the character offset, `token_length` the surface length. -/
structure Posting where
  line_no : Option Nat
  position : Nat
  token_length : Nat
deriving DecidableEq, Repr

/-- A span `[start, end)` over a text, in character units. -/
abbrev Span := Nat × Nat

/-- `LineMatch`: line number, full line text and matched spans. -/
structure LineMatch where
  line_no : Nat
  text : List Char
  spans : List Span
deriving DecidableEq, Repr

/-- `SearchResult`: one document's aggregated matches.  The source's
`matches` field is called `matchCount` here (`matches` is reserved in
Lean). -/
structure SearchResult where
  title : List Char
  title_spans : List Span
  line_matches : List LineMatch
  matchCount : Nat
deriving DecidableEq, Repr

/-- Comparison used to sort `title_spans`: Python tuple order (start,
then end). -/
def spanLe (a b : Span) : Bool :=
  decide (a.1 < b.1 ∨ (a.1 = b.1 ∧ a.2 ≤ b.2))

/-- Comparison used to sort merged line matches: `key=lambda x: x.line_no`. -/
def lmLe (a b : LineMatch) : Bool := decide (a.line_no ≤ b.line_no)

/-- The body of the `for lm in other.line_matches` loop of
`combine_with`: extend the kept entry's spans, or insert a copy. -/
def lineStep (m : List (Nat × LineMatch)) (lm : LineMatch) : List (Nat × LineMatch) :=
  aupdOr m lm.line_no lm (fun old => { old with spans := old.spans ++ lm.spans })

/-- The dict comprehension `{lm.line_no: lm.copy() for lm in
self.line_matches}`. -/
def linesByNo (lms : List LineMatch) : List (Nat × LineMatch) :=
  lms.foldl (fun m lm => aset m lm.line_no lm) []

/-- `SearchResult.combine_with`: additive match counts, sorted
concatenation of title spans, merge of line matches by line number. -/
def combine_with (a b : SearchResult) : SearchResult :=
  let linesM : List (Nat × LineMatch) :=
    b.line_matches.foldl lineStep (linesByNo a.line_matches)
  { title := a.title
    title_spans := isortLe spanLe (a.title_spans ++ b.title_spans)
    line_matches := isortLe lmLe (linesM.map Prod.snd)
    matchCount := a.matchCount + b.matchCount }

/-! ### Inverted index (`Index.__init__`, `Index._add_token`,
`Index.search_for`) -/

/-- The two-level dictionary: stemmed token → document id → postings. -/
abbrev Dict := List (List Char × List (Nat × List Posting))

/-- `Index._add_token`: append a posting under `token → doc_id`, creating
the inner dictionary / posting list on first use. -/
def addToken (d : Dict) (docId : Nat) (token : List Char) (ln : Option Nat)
    (pos len : Nat) : Dict :=
  aupd d token [] (fun plist => aupd plist docId [] (fun ps => ps ++ [⟨ln, pos, len⟩]))

/-- The built index: documents by id plus the inverted dictionary. -/
structure Index where
  sonnets : List (Nat × Sonnet)
  dictionary : Dict
deriving Repr

/-- `Index.__init__`: index every document's title (location `none`) and
lines (1-based), tokens left to right, stemming each token but recording
its original surface length. -/
def buildIndex (ss : List Sonnet) : Index :=
  { sonnets := ss.foldl (fun m s => aset m s.id s) []
    dictionary :=
      ss.foldl (fun d s =>
        let d1 := (tokenize s.title).foldl
          (fun d tp => addToken d s.id (stem tp.1) none tp.2 tp.1.length) d
        ((List.range s.lines.length).zip s.lines).foldl
          (fun d le =>
            (tokenize le.2).foldl
              (fun d tp => addToken d s.id (stem tp.1) (some (le.1 + 1)) tp.2 tp.1.length) d)
          d1) [] }

/-- The minimal `SearchResult` built by `Index.search_for` for one
posting: a single span in the title or in the posting's line. -/
def minimalResult (idx : Index) (docId : Nat) (p : Posting) : SearchResult :=
  let sonnet := (alookup idx.sonnets docId).getD ⟨0, [], []⟩
  match p.line_no with
  | none =>
    { title := sonnet.title
      title_spans := [(p.position, p.position + p.token_length)]
      line_matches := []
      matchCount := 1 }
  | some ln =>
    { title := sonnet.title
      title_spans := []
      line_matches := [⟨ln, (sonnet.lines.get? (ln - 1)).getD [], [(p.position, p.position + p.token_length)]⟩]
      matchCount := 1 }

/-- `Index.search_for`: stem the query token, then fold every posting of
every document into a mapping document id → combined result. -/
def search_for (idx : Index) (token : List Char) : List (Nat × SearchResult) :=
  match alookup idx.dictionary (stem token) with
  | none => []
  | some plist =>
    plist.foldl (fun results dp =>
      dp.2.foldl (fun results p =>
        let r := minimalResult idx dp.1 p
        aupdOr results dp.1 r (fun r0 => combine_with r0 r)) results) []

/-! ### Search engine (`Searcher.search`) -/

/-- One iteration of the word loop in `Searcher.search`.  Note the
source's `if not combined_results:` test: an *empty* running set is
re-seeded by the next word, whatever the mode. -/
def searchStep (idx : Index) (mode : List Char)
    (combined : List (Nat × SearchResult)) (word : List Char) : List (Nat × SearchResult) :=
  let results := search_for idx word
  if combined.isEmpty then results
  else if mode = strToL "AND" then
    combined.foldl (fun nc dr =>
      match alookup results dr.1 with
      | some r2 => nc ++ [(dr.1, combine_with dr.2 r2)]
      | none => nc) []
  else if mode = strToL "OR" then
    results.foldl (fun comb dr => aupdOr comb dr.1 dr.2 (fun r0 => combine_with r0 dr.2)) combined
  else combined

/-- `Searcher.search`: split the query on whitespace, fold the words
through `searchStep`, return the values sorted by title. -/
def search (idx : Index) (query : List Char) (mode : List Char) : List SearchResult :=
  let combined := (splitWs query).foldl (searchStep idx mode) []
  isortLe (fun a b => lexLe a.title b.title) (combined.map Prod.snd)

/-! ### Highlighting (`SearchResult.ansi_highlight`) -/

/-- Python slice `t[a:b]` for non-negative indices (clamping at the ends). -/
def pySlice (t : List Char) (a b : Nat) : List Char := (t.take b).drop a

/-- The merge loop of `ansi_highlight`: fold sorted spans, fusing a span
into the current region when its start is `≤` the current end. -/
def mergeGo (cur : Span) : List Span → List Span
  | [] => [cur]
  | (s, e) :: rest =>
    if s ≤ cur.2 then mergeGo (cur.1, max cur.2 e) rest
    else cur :: mergeGo (s, e) rest

/-- Merge sorted, possibly overlapping spans into disjoint regions. -/
def mergeSpans : List Span → List Span
  | [] => []
  | p :: rest => mergeGo p rest

/-- The ANSI marker pair selected by the highlight mode. -/
def ansiMarker (mode : List Char) : List Char :=
  if mode = strToL "DEFAULT"
  then Char.ofNat 27 :: strToL "[43m" ++ (Char.ofNat 27 :: strToL "[30m")
  else Char.ofNat 27 :: strToL "[1;92m"

/-- The ANSI reset sequence appended after each highlighted region. -/
def ansiReset : List Char := Char.ofNat 27 :: strToL "[0m"

/-- The pieces appended to `out` by the render loop of `ansi_highlight`,
each flagged `true` when it is an inserted marker (the ANSI escape) and
`false` when it is a slice of the original text. -/
def segsGo (text : List Char) (mode : List Char) (i : Nat) : List Span → List (Bool × List Char)
  | [] => [(false, text.drop i)]
  | (s, e) :: rest =>
    (false, pySlice text i s) :: (true, ansiMarker mode) ::
      (false, pySlice text s e) :: (true, ansiReset) :: segsGo text mode e rest

/-- The flagged segments of `ansi_highlight`'s output. -/
def ansiSegments (text : List Char) (spans : List Span) (mode : List Char) :
    List (Bool × List Char) :=
  if spans.isEmpty then [(false, text)]
  else segsGo text mode 0 (mergeSpans (isortLe spanLe spans))

/-- `SearchResult.ansi_highlight`: the concatenation of the segments. -/
def ansi_highlight (text : List Char) (spans : List Span) (mode : List Char) : List Char :=
  ((ansiSegments text spans mode).map Prod.snd).flatten

/-- The text recovered by deleting every inserted marker segment. -/
def stripMarkers (segs : List (Bool × List Char)) : List Char :=
  ((segs.filter (fun p => !p.1)).map Prod.snd).flatten

/-! ### Lemmas about the insertion sort -/

theorem insLe_perm {α : Type} (le : α → α → Bool) (x : α) (l : List α) :
    List.Perm (insLe le x l) (x :: l) := by
  induction l with
  | nil => simp [insLe]
  | cons y ys ih =>
    simp only [insLe]
    by_cases h : le y x = true
    · simp only [h, if_true]
      exact ((ih.cons y).trans (List.Perm.swap x y ys))
    · simp [h]

theorem isortLe_core_perm {α : Type} (le : α → α → Bool) (l acc : List α) :
    List.Perm (l.foldl (fun acc x => insLe le x acc) acc) (acc ++ l) := by
  induction l generalizing acc with
  | nil => simp
  | cons x xs ih =>
    simp only [List.foldl_cons]
    refine (ih (insLe le x acc)).trans ?_
    have h1 : List.Perm (insLe le x acc ++ xs) ((x :: acc) ++ xs) :=
      (insLe_perm le x acc).append_right xs
    refine h1.trans ?_
    simpa using (List.perm_middle : List.Perm (acc ++ x :: xs) (x :: (acc ++ xs))).symm

theorem isortLe_perm {α : Type} (le : α → α → Bool) (l : List α) :
    List.Perm (isortLe le l) l := by
  simpa using isortLe_core_perm le l []

theorem mem_isortLe {α : Type} (le : α → α → Bool) (l : List α) (x : α) :
    x ∈ isortLe le l ↔ x ∈ l :=
  (isortLe_perm le l).mem_iff

theorem length_isortLe {α : Type} (le : α → α → Bool) (l : List α) :
    (isortLe le l).length = l.length :=
  (isortLe_perm le l).length_eq

theorem insLe_pairwise {α : Type} (le : α → α → Bool)
    (htot : ∀ x y, le x y = true ∨ le y x = true)
    (htr : ∀ x y z, le x y = true → le y z = true → le x z = true)
    (x : α) (l : List α) (h : l.Pairwise (fun a b => le a b = true)) :
    (insLe le x l).Pairwise (fun a b => le a b = true) := by
  induction l with
  | nil => simp [insLe]
  | cons y ys ih =>
    simp only [insLe]
    rcases List.pairwise_cons.mp h with ⟨hy, hys⟩
    by_cases hc : le y x = true
    · simp only [hc, if_true]
      refine List.pairwise_cons.mpr ⟨?_, ih hys⟩
      intro z hz
      rcases List.mem_cons.mp ((insLe_perm le x ys).mem_iff.mp hz) with hz | hz
      · subst hz; exact hc
      · exact hy z hz
    · simp only [hc, if_false]
      have hxy : le x y = true := (htot x y).resolve_right (by simpa using hc)
      refine List.pairwise_cons.mpr ⟨?_, h⟩
      intro z hz
      rcases List.mem_cons.mp hz with hz | hz
      · subst hz; exact hxy
      · exact htr x y z hxy (hy z hz)

theorem isortLe_pairwise {α : Type} (le : α → α → Bool)
    (htot : ∀ x y, le x y = true ∨ le y x = true)
    (htr : ∀ x y z, le x y = true → le y z = true → le x z = true)
    (l : List α) :
    (isortLe le l).Pairwise (fun a b => le a b = true) := by
  suffices h : ∀ acc, acc.Pairwise (fun a b => le a b = true) →
      (l.foldl (fun acc x => insLe le x acc) acc).Pairwise (fun a b => le a b = true) by
    exact h [] (by simp)
  induction l with
  | nil => intro acc hacc; simpa using hacc
  | cons x xs ih =>
    intro acc hacc
    exact ih (insLe le x acc) (insLe_pairwise le htot htr x acc hacc)

theorem spanLe_total : ∀ x y : Span, spanLe x y = true ∨ spanLe y x = true := by
  intro x y
  simp only [spanLe, decide_eq_true_eq]
  omega

theorem spanLe_trans : ∀ x y z : Span,
    spanLe x y = true → spanLe y z = true → spanLe x z = true := by
  intro x y z
  simp only [spanLe, decide_eq_true_eq]
  omega

theorem lmLe_total : ∀ x y : LineMatch, lmLe x y = true ∨ lmLe y x = true := by
  intro x y
  simp only [lmLe, decide_eq_true_eq]
  omega

theorem lmLe_trans : ∀ x y z : LineMatch,
    lmLe x y = true → lmLe y z = true → lmLe x z = true := by
  intro x y z
  simp only [lmLe, decide_eq_true_eq]
  omega

/-! ### The specification's reference stemming pipeline (spec §4.1):
an explicit rule table per pass, first matching rule wins, a word
matching no rule passes through unchanged. -/

/-- One suffix-stripping rule: matched suffix, optional minimum-length
guard (`length > n`), number of characters to drop, characters to
append. -/
structure SuffixRule where
  sfx : List Char
  lenGuard : Option Nat
  dropN : Nat
  app : List Char

/-- Does a rule fire on `w`? Its suffix must match and its length guard
(if any) must hold. -/
def ruleFires (w : List Char) (r : SuffixRule) : Bool :=
  endsWithL w r.sfx &&
    match r.lenGuard with
    | none => true
    | some n => decide (w.length > n)

/-- Apply a rule's transform: drop the last `dropN` characters, append
`app`. -/
def applyRule (w : List Char) (r : SuffixRule) : List Char :=
  dropLastN w r.dropN ++ r.app

/-- Apply at most the first rule that fires; no rule leaves `w`
unchanged. -/
def applyFirst : List SuffixRule → List Char → List Char
  | [], w => w
  | r :: rs, w => if ruleFires w r then applyRule w r else applyFirst rs w

/-- Pass 1 (plural forms), longest match first. -/
def pass1Rules : List SuffixRule :=
  [⟨strToL "sses", none, 2, []⟩, ⟨strToL "ies", none, 2, []⟩,
   ⟨strToL "ss", none, 0, []⟩, ⟨strToL "s", none, 1, []⟩]

/-- Pass 2 (verb forms), each rule guarded by a minimum length. -/
def pass2Rules : List SuffixRule :=
  [⟨strToL "eed", some 4, 1, []⟩, ⟨strToL "ed", some 4, 2, []⟩,
   ⟨strToL "ing", some 5, 3, []⟩]

/-- Pass 3 (derivational suffixes), first match wins, no length guard. -/
def pass3Rules : List SuffixRule :=
  [⟨strToL "ational", none, 5, strToL "e"⟩, ⟨strToL "tion", none, 4, strToL "t"⟩,
   ⟨strToL "ness", none, 4, []⟩, ⟨strToL "ment", none, 4, []⟩,
   ⟨strToL "able", none, 4, []⟩, ⟨strToL "ible", none, 4, []⟩,
   ⟨strToL "ful", none, 3, []⟩, ⟨strToL "ous", none, 3, []⟩,
   ⟨strToL "ive", none, 3, []⟩, ⟨strToL "ly", none, 2, []⟩]

/-- The spec's `normalize`: remove the literal apostrophe, comma and
period characters (all occurrences), then lowercase. -/
def normalizeSpec (t : List Char) : List Char :=
  (t.filter
    (fun c => !(c = Char.ofNat 39 || c = Char.ofNat 44 || c = Char.ofNat 46))).map Char.toLower

/-- The spec's reference `stem` pipeline: normalize, then the three
sequential passes, each applying at most its first matching rule. -/
def stemSpec (t : List Char) : List Char :=
  applyFirst pass3Rules (applyFirst pass2Rules (applyFirst pass1Rules (normalizeSpec t)))

/-! ### Lemmas for the stemmer equivalence -/

theorem toNat_ofNat_lt (n : Nat) (h : n < 55296) : (Char.ofNat n).toNat = n := by
  rw [Char.ofNat, dif_pos (Or.inl h)]
  rfl

theorem toLower_toLower (c : Char) : Char.toLower (Char.toLower c) = Char.toLower c := by
  unfold Char.toLower
  by_cases h : c.toNat ≥ 65 ∧ c.toNat ≤ 90
  · rw [if_pos h]
    have hv : c.toNat + 32 < 55296 := by omega
    rw [if_neg]
    rw [toNat_ofNat_lt _ hv]
    omega
  · rw [if_neg h, if_neg h]

theorem map_toLower_idem (l : List Char) :
    (l.map Char.toLower).map Char.toLower = l.map Char.toLower := by
  rw [List.map_map]
  exact List.map_congr_left (fun c _ => toLower_toLower c)

theorem normalize_eq_normalizeSpec (t : List Char) : normalize t = normalizeSpec t := by
  simp only [normalize, normalizeSpec, List.filter_filter]
  congr 1
  apply List.filter_congr
  intro c _
  cases Decidable.em (c = Char.ofNat 39) <;> cases Decidable.em (c = Char.ofNat 44) <;>
    cases Decidable.em (c = Char.ofNat 46) <;> simp_all

theorem normalize_map_toLower (t : List Char) :
    (normalize t).map Char.toLower = normalize t := by
  simp only [normalize]
  exact map_toLower_idem _

theorem endsWithL_iff (w s : List Char) : endsWithL w s = true ↔ ∃ t, w = t ++ s := by
  rw [endsWithL, List.isSuffixOf_iff_suffix]
  constructor
  · intro h; obtain ⟨t, ht⟩ := h; exact ⟨t, ht.symm⟩
  · intro h; obtain ⟨t, ht⟩ := h; exact ⟨t, ht.symm⟩

theorem endsWith_ed_of_eed (w : List Char)
    (h : endsWithL w (strToL "eed") = true) : endsWithL w (strToL "ed") = true := by
  rw [endsWithL_iff] at h ⊢
  rcases h with ⟨t, ht⟩
  refine ⟨t ++ [Char.ofNat 101], ?_⟩
  rw [ht]
  simp [strToL]

theorem getLast_of_endsWith_ed (w : List Char)
    (h : endsWithL w (strToL "ed") = true) : w.getLast? = some (Char.ofNat 100) := by
  rw [endsWithL_iff] at h
  rcases h with ⟨t, ht⟩
  subst ht
  have : t ++ strToL "ed" = (t ++ [Char.ofNat 101]) ++ [Char.ofNat 100] := by
    simp [strToL]
  rw [this, List.getLast?_concat]

theorem getLast_of_endsWith_ing (w : List Char)
    (h : endsWithL w (strToL "ing") = true) : w.getLast? = some (Char.ofNat 103) := by
  rw [endsWithL_iff] at h
  rcases h with ⟨t, ht⟩
  subst ht
  have : t ++ strToL "ing" = (t ++ [Char.ofNat 105, Char.ofNat 110]) ++ [Char.ofNat 103] := by
    simp [strToL]
  rw [this, List.getLast?_concat]

theorem not_ing_of_ed (w : List Char) (h : endsWithL w (strToL "ed") = true) :
    endsWithL w (strToL "ing") = false := by
  by_contra hc
  have hg := getLast_of_endsWith_ing w (by simpa using hc)
  have hd := getLast_of_endsWith_ed w h
  rw [hd] at hg
  have : Char.ofNat 100 = Char.ofNat 103 := by injection hg
  exact absurd this (by decide)

theorem applyFirst_pass1 (w : List Char) : applyFirst pass1Rules w = step1a w := by
  simp only [applyFirst, pass1Rules, ruleFires, applyRule, step1a, Bool.and_true,
    List.append_nil]
  by_cases h1 : endsWithL w (strToL "sses") = true <;>
    by_cases h2 : endsWithL w (strToL "ies") = true <;>
      by_cases h3 : endsWithL w (strToL "ss") = true <;>
        by_cases h4 : endsWithL w (strToL "s") = true <;>
          simp [h1, h2, h3, h4, dropLastN]

theorem applyFirst_pass2 (w : List Char) : applyFirst pass2Rules w = step1b w := by
  simp only [applyFirst, pass2Rules, ruleFires, applyRule, step1b, List.append_nil]
  by_cases h1 : endsWithL w (strToL "eed") = true
  · have h2 := endsWith_ed_of_eed w h1
    have h3 := not_ing_of_ed w h2
    by_cases hg : w.length > 4
    · simp [h1, h2, h3, hg]
    · simp [h1, h2, h3, hg]
  · by_cases h2 : endsWithL w (strToL "ed") = true
    · have h3 := not_ing_of_ed w h2
      by_cases hg : w.length > 4
      · simp [h1, h2, h3, hg]
      · simp [h1, h2, h3, hg]
    · by_cases h3 : endsWithL w (strToL "ing") = true
      · by_cases hg : w.length > 5 <;> simp [h1, h2, h3, hg]
      · simp [h1, h2, h3]

theorem applyFirst_pass3 (w : List Char) : applyFirst pass3Rules w = step2 w := by
  simp only [applyFirst, pass3Rules, ruleFires, applyRule, step2, Bool.and_true,
    List.append_nil]

/-- **C7.** For every token, the source's `stem` equals the spec's
reference pipeline: normalize (strip apostrophe/comma/period, lowercase),
then three sequential first-match-wins rule passes with the listed
suffixes, guards and transforms. -/
theorem stem_eq_stemSpec (t : List Char) : stem t = stemSpec t := by
  rw [stem, stemSpec, porterStem, ← normalize_eq_normalizeSpec,
    normalize_map_toLower, applyFirst_pass1, applyFirst_pass2, applyFirst_pass3]

/-- The token `beauty's` (with its apostrophe written as a character
code). -/
def beautysToken : List Char := strToL "beauty" ++ Char.ofNat 39 :: strToL "s"

/-- **C3, counterexample.** `stem("beauty's")` is not `"beautys"`: after
the apostrophe is stripped, the plural rule of pass 1 still fires on the
trailing `s`. -/
theorem c3_beautys_counterexample : stem beautysToken ≠ strToL "beautys" := by decide

/-- **C3, amended.** The three test inputs map to `"sonnet"`, `"lov"`
and `"beauty"`: for `beauty's` the apostrophe is stripped and then the
`'s'` rule of pass 1 drops the final `s`. -/
theorem c3_stem_test_outputs :
    stem (strToL "Sonnets") = strToL "sonnet" ∧
    stem (strToL "loving") = strToL "lov" ∧
    stem beautysToken = strToL "beauty" := by decide

/-! ### Highlighting: merged-region chain and marker-stripping (C8) -/

/-- The regions handed to the render loop, viewed from write position
`i`: each region is well formed and starts no earlier than `i`, and
regions follow one another. -/
def chainFrom (i : Nat) : List Span → Prop
  | [] => True
  | (s, e) :: rest => i ≤ s ∧ s ≤ e ∧ chainFrom e rest

theorem take_drop_glue {α : Type} (u : List α) (i s : Nat) (h : i ≤ s) :
    (u.take s).drop i ++ u.drop s = u.drop i := by
  induction u generalizing i s with
  | nil => simp
  | cons x xs ih =>
    cases s with
    | zero =>
      have : i = 0 := Nat.le_zero.mp h
      subst this; simp
    | succ s =>
      cases i with
      | zero => simp
      | succ i => simpa using ih i s (Nat.le_of_succ_le_succ h)

theorem pySlice_glue (t : List Char) (i s e : Nat) (h1 : i ≤ s) (h2 : s ≤ e) :
    pySlice t i s ++ pySlice t s e = pySlice t i e := by
  have hts : t.take s = (t.take e).take s := by
    rw [List.take_take, Nat.min_eq_left h2]
  simp only [pySlice]
  rw [hts]
  exact take_drop_glue (t.take e) i s h1

theorem stripMarkers_cons_false (x : List Char) (segs : List (Bool × List Char)) :
    stripMarkers ((false, x) :: segs) = x ++ stripMarkers segs := by
  simp [stripMarkers]

theorem stripMarkers_cons_true (x : List Char) (segs : List (Bool × List Char)) :
    stripMarkers ((true, x) :: segs) = stripMarkers segs := by
  simp [stripMarkers]

theorem pySlice_drop (t : List Char) (i e : Nat) (h : i ≤ e) :
    pySlice t i e ++ t.drop e = t.drop i :=
  take_drop_glue t i e h

theorem stripMarkers_segsGo (text : List Char) (mode : List Char) :
    ∀ (regions : List Span) (i : Nat), chainFrom i regions →
      stripMarkers (segsGo text mode i regions) = text.drop i := by
  intro regions
  induction regions with
  | nil =>
    intro i _
    simp [segsGo, stripMarkers]
  | cons p rest ih =>
    obtain ⟨s, e⟩ := p
    intro i hc
    obtain ⟨h1, h2, hrest⟩ := hc
    show stripMarkers ((false, pySlice text i s) :: (true, ansiMarker mode) ::
      (false, pySlice text s e) :: (true, ansiReset) :: segsGo text mode e rest) = text.drop i
    rw [stripMarkers_cons_false, stripMarkers_cons_true, stripMarkers_cons_false,
      stripMarkers_cons_true, ih e hrest, pySlice_drop text s e h2,
      pySlice_drop text i s h1]

theorem mergeGo_chainFrom (b : Nat) :
    ∀ (l : List Span) (cur : Span), b ≤ cur.1 → cur.1 ≤ cur.2 →
      (∀ p ∈ l, p.1 ≤ p.2) → (∀ p ∈ l, cur.1 ≤ p.1) →
      l.Pairwise (fun p q => p.1 ≤ q.1) →
      chainFrom b (mergeGo cur l) := by
  intro l
  induction l generalizing b with
  | nil =>
    intro cur hb hc _ _ _
    exact ⟨hb, hc, trivial⟩
  | cons p rest ih =>
    intro cur hb hc hwf hmono hsort
    rcases List.pairwise_cons.mp hsort with ⟨hp, hrest⟩
    simp only [mergeGo]
    by_cases hle : p.1 ≤ cur.2
    · rw [if_pos hle]
      refine ih b (cur.1, max cur.2 p.2) hb (Nat.le_trans hc (Nat.le_max_left _ _)) ?_ ?_ hrest
      · intro q hq; exact hwf q (List.mem_cons_of_mem p hq)
      · intro q hq; exact hmono q (List.mem_cons_of_mem p hq)
    · rw [if_neg hle]
      refine ⟨hb, hc, ?_⟩
      have hres := ih cur.2 (p.1, p.2) (Nat.le_of_not_le hle) (hwf p (List.mem_cons_self p rest))
        (fun q hq => hwf q (List.mem_cons_of_mem p hq)) hp hrest
      simpa using hres

theorem mergeSpans_chainFrom (l : List Span) (hwf : ∀ p ∈ l, p.1 ≤ p.2)
    (hsort : l.Pairwise (fun p q => p.1 ≤ q.1)) :
    chainFrom 0 (mergeSpans l) := by
  cases l with
  | nil => trivial
  | cons p rest =>
    rcases List.pairwise_cons.mp hsort with ⟨hp, hrest⟩
    exact mergeGo_chainFrom 0 rest p (Nat.zero_le _) (hwf p (List.mem_cons_self p rest))
      (fun q hq => hwf q (List.mem_cons_of_mem p hq)) hp hrest

/-- The spec's description of the renderer: walk the merged regions from
write position `i`, copying the untouched text and wrapping each region
in the mode's marker pair. -/
def wrapRegions (text : List Char) (mode : List Char) : Nat → List Span → List Char
  | i, [] => text.drop i
  | i, (s, e) :: rest =>
    pySlice text i s ++ ansiMarker mode ++ pySlice text s e ++ ansiReset ++
      wrapRegions text mode e rest

theorem segsGo_flatten (text : List Char) (mode : List Char) :
    ∀ (regions : List Span) (i : Nat),
      ((segsGo text mode i regions).map Prod.snd).flatten = wrapRegions text mode i regions := by
  intro regions
  induction regions with
  | nil => intro i; simp [segsGo, wrapRegions]
  | cons p rest ih =>
    intro i
    simp only [segsGo, wrapRegions, List.map_cons, List.flatten, ih p.2]
    simp [List.append_assoc]

/-- The spans used as input to the sorted merge, with pairwise `spanLe`
weakened to non-decreasing starts. -/
theorem isort_spans_starts (spans : List Span) :
    (isortLe spanLe spans).Pairwise (fun p q => p.1 ≤ q.1) := by
  have h := isortLe_pairwise spanLe spanLe_total spanLe_trans spans
  refine h.imp ?_
  intro p q hpq
  simp only [spanLe, decide_eq_true_eq] at hpq
  omega

/-- **C8.** For every text, every list of (possibly overlapping,
well-formed) spans and every mode: deleting the inserted markers from
`ansi_highlight`'s output recovers the text unchanged; an empty span
list returns the text unchanged; the output wraps exactly the merged
regions obtained by sorting by start and fusing any span whose start is
`≤` the current merged end; and the spec's two merge examples hold. -/
theorem c8_ansi_highlight (text : List Char) (spans : List Span) (mode : List Char)
    (hwf : ∀ p ∈ spans, p.1 ≤ p.2) :
    stripMarkers (ansiSegments text spans mode) = text ∧
    ansi_highlight text [] mode = text ∧
    ansi_highlight text spans mode = wrapRegions text mode 0 (mergeSpans (isortLe spanLe spans)) ∧
    mergeSpans (isortLe spanLe [(0, 3), (2, 5)]) = [(0, 5)] ∧
    mergeSpans (isortLe spanLe [(0, 3), (5, 8)]) = [(0, 3), (5, 8)] := by
  refine ⟨?_, ?_, ?_, by decide, by decide⟩
  · by_cases hsp : spans.isEmpty
    · simp [ansiSegments, hsp, stripMarkers]
    · rw [ansiSegments, if_neg hsp]
      have hwf2 : ∀ p ∈ isortLe spanLe spans, p.1 ≤ p.2 := by
        intro p hp; exact hwf p ((mem_isortLe spanLe spans p).mp hp)
      have hchain := mergeSpans_chainFrom (isortLe spanLe spans) hwf2 (isort_spans_starts spans)
      rw [stripMarkers_segsGo text mode _ 0 hchain]
      simp
  · simp [ansi_highlight, ansiSegments, stripMarkers]
  · by_cases hsp : spans.isEmpty
    · have : spans = [] := List.isEmpty_iff.mp hsp
      subst this
      simp [ansi_highlight, ansiSegments, isortLe, mergeSpans, wrapRegions]
    · rw [ansi_highlight, ansiSegments, if_neg hsp]
      exact segsGo_flatten text mode _ 0

/-- **C8, witness.** The hypotheses of `c8_ansi_highlight` hold at the
spec's concrete example. -/
theorem c8_ansi_highlight_witness :
    stripMarkers (ansiSegments (strToL "abcdefghij") [(0, 3), (2, 5)] (strToL "DEFAULT")) =
      strToL "abcdefghij" :=
  (c8_ansi_highlight (strToL "abcdefghij") [(0, 3), (2, 5)] (strToL "DEFAULT") (by decide)).1

/-! ### Association-list lemmas -/

/-- The keys of an association list, in order. -/
def akeys {κ α : Type} (m : List (κ × α)) : List κ := m.map Prod.fst

theorem alookup_isSome_iff_mem {κ α : Type} [DecidableEq κ] (m : List (κ × α)) (k : κ) :
    (alookup m k).isSome ↔ k ∈ akeys m := by
  induction m with
  | nil => simp [alookup, akeys]
  | cons p rest ih =>
    obtain ⟨k1, v⟩ := p
    by_cases h : k = k1
    · subst h; simp [alookup, akeys]
    · simp [alookup, akeys, h, ih]

theorem alookup_eq_none_iff {κ α : Type} [DecidableEq κ] (m : List (κ × α)) (k : κ) :
    alookup m k = none ↔ k ∉ akeys m := by
  rw [← alookup_isSome_iff_mem]
  cases alookup m k <;> simp

theorem mem_of_alookup_eq_some {κ α : Type} [DecidableEq κ] (m : List (κ × α)) (k : κ) (v : α)
    (h : alookup m k = some v) : (k, v) ∈ m := by
  induction m with
  | nil => simp [alookup] at h
  | cons p rest ih =>
    obtain ⟨k1, w⟩ := p
    by_cases hk : k = k1
    · subst hk
      simp [alookup] at h
      simp [h]
    · simp [alookup, hk] at h
      exact List.mem_cons_of_mem _ (ih h)

theorem alookup_eq_some_of_mem_nodup {κ α : Type} [DecidableEq κ] (m : List (κ × α))
    (k : κ) (v : α) (hnd : (akeys m).Nodup) (h : (k, v) ∈ m) : alookup m k = some v := by
  induction m with
  | nil => simp at h
  | cons p rest ih =>
    obtain ⟨k1, w⟩ := p
    have hnd2 : k1 ∉ List.map Prod.fst rest ∧ (List.map Prod.fst rest).Nodup := by
      simpa [akeys] using hnd
    rcases List.mem_cons.mp h with h1 | h1
    · injection h1 with h1a h1b
      subst h1a; subst h1b
      simp [alookup]
    · have hk1 : ¬ k = k1 := by
        intro he
        subst he
        exact hnd2.1 (List.mem_map_of_mem Prod.fst h1)
      simp only [alookup, if_neg hk1]
      exact ih (by simpa [akeys] using hnd2.2) h1

theorem aupdOr_lookup {κ α : Type} [DecidableEq κ] (m : List (κ × α)) (k : κ) (v : α)
    (f : α → α) (k0 : κ) :
    alookup (aupdOr m k v f) k0 =
      if k0 = k then
        match alookup m k with
        | some w => some (f w)
        | none => some v
      else alookup m k0 := by
  induction m with
  | nil =>
    by_cases h : k0 = k
    · subst h; simp [aupdOr, alookup]
    · simp [aupdOr, alookup, h]
  | cons p rest ih =>
    obtain ⟨k1, w⟩ := p
    by_cases hk : k = k1
    · subst hk
      by_cases h0 : k0 = k
      · subst h0; simp [aupdOr, alookup]
      · simp [aupdOr, alookup, h0]
    · simp only [aupdOr, if_neg hk]
      by_cases h0 : k0 = k1
      · subst h0
        have hka : ¬ k0 = k := fun hc => hk hc.symm
        simp [alookup, hka]
      · simp only [alookup, if_neg h0]
        rw [ih, if_neg hk]

theorem aupdOr_keys {κ α : Type} [DecidableEq κ] (m : List (κ × α)) (k : κ) (v : α)
    (f : α → α) :
    akeys (aupdOr m k v f) = if k ∈ akeys m then akeys m else akeys m ++ [k] := by
  induction m with
  | nil => simp [aupdOr, akeys]
  | cons p rest ih =>
    obtain ⟨k1, w⟩ := p
    by_cases hk : k = k1
    · subst hk
      simp [aupdOr, akeys]
    · simp only [aupdOr, if_neg hk, akeys, List.map_cons]
      have hcond : (k ∈ akeys ((k1, w) :: rest)) ↔ k ∈ akeys rest := by
        simp [akeys, hk]
      by_cases hmem : k ∈ akeys rest
      · rw [if_pos (by simpa [akeys, hk] using hmem)]
        have ih2 := ih
        rw [if_pos hmem] at ih2
        simp only [akeys] at ih2
        rw [ih2]
      · rw [if_neg (by simpa [akeys, hk] using hmem)]
        have ih2 := ih
        rw [if_neg hmem] at ih2
        simp only [akeys] at ih2
        rw [ih2]
        simp

theorem aupdOr_keys_nodup {κ α : Type} [DecidableEq κ] (m : List (κ × α)) (k : κ) (v : α)
    (f : α → α) (h : (akeys m).Nodup) : (akeys (aupdOr m k v f)).Nodup := by
  rw [aupdOr_keys]
  by_cases hmem : k ∈ akeys m
  · simpa [hmem] using h
  · simp only [hmem, if_false]
    refine List.Nodup.append h (List.nodup_singleton k) ?_
    intro a ha hb
    rw [List.mem_singleton] at hb
    subst hb
    exact hmem ha

theorem aupdOr_of_not_mem {κ α : Type} [DecidableEq κ] (m : List (κ × α)) (k : κ) (v : α)
    (f : α → α) (h : k ∉ akeys m) : aupdOr m k v f = m ++ [(k, v)] := by
  induction m with
  | nil => simp [aupdOr]
  | cons p rest ih =>
    obtain ⟨k1, w⟩ := p
    have h1 : ¬ k = k1 := by
      intro he; exact h (by simp [akeys, he])
    have h2 : k ∉ akeys rest := by
      intro hm
      refine h ?_
      simp only [akeys, List.map_cons, List.mem_cons]
      exact Or.inr (by simpa [akeys] using hm)
    simp only [aupdOr, if_neg h1, List.cons_append]
    rw [ih h2]

theorem aset_of_not_mem {κ α : Type} [DecidableEq κ] (m : List (κ × α)) (k : κ) (v : α)
    (h : k ∉ akeys m) : aset m k v = m ++ [(k, v)] := by
  induction m with
  | nil => simp [aset, aupd]
  | cons p rest ih =>
    obtain ⟨k1, w⟩ := p
    have h1 : ¬ k = k1 := by
      intro he; exact h (by simp [akeys, he])
    have h2 : k ∉ akeys rest := by
      intro hm
      refine h ?_
      simp only [akeys, List.map_cons, List.mem_cons]
      exact Or.inr (by simpa [akeys] using hm)
    have ih2 := ih h2
    simp only [aset] at ih2
    simp only [aset, aupd, if_neg h1, List.cons_append]
    rw [ih2]

/-! ### The line-match merge of `combine_with` -/

/-- All spans recorded for line `n` in a list of line matches, in listed
order. -/
def spansAt (lms : List LineMatch) (n : Nat) : List Span :=
  ((lms.filter (fun lm => decide (lm.line_no = n))).map LineMatch.spans).flatten

/-- The line numbers of a result's line matches, in order. -/
def lineNos (lms : List LineMatch) : List Nat := lms.map LineMatch.line_no

/-- Every entry of the merge dictionary is keyed by its line number. -/
def goodMap (m : List (Nat × LineMatch)) : Prop := ∀ p ∈ m, (p.2).line_no = p.1

theorem foldl_aset_eq (lms : List LineMatch) :
    ∀ m : List (Nat × LineMatch), (∀ lm ∈ lms, lm.line_no ∉ akeys m) →
      (lineNos lms).Nodup →
      lms.foldl (fun m lm => aset m lm.line_no lm) m = m ++ lms.map (fun lm => (lm.line_no, lm)) := by
  induction lms with
  | nil => intro m _ _; simp
  | cons lm rest ih =>
    intro m hdis hnd
    obtain ⟨hhead, htail⟩ :
        (∀ x ∈ rest, ¬ x.line_no = lm.line_no) ∧ (List.map LineMatch.line_no rest).Nodup := by
      simpa [lineNos] using hnd
    simp only [List.foldl_cons]
    rw [aset_of_not_mem m lm.line_no lm (hdis lm (List.mem_cons_self lm rest))]
    rw [ih (m ++ [(lm.line_no, lm)]) ?_ ?_]
    · simp
    · intro lm2 hlm2
      simp only [akeys, List.map_append, List.mem_append, List.map_cons, List.map_nil,
        List.mem_singleton]
      rintro (hin | hin)
      · exact hdis lm2 (List.mem_cons_of_mem lm hlm2) hin
      · exact hhead lm2 hlm2 hin
    · simpa [lineNos] using htail

theorem linesByNo_eq (lms : List LineMatch) (hnd : (lineNos lms).Nodup) :
    linesByNo lms = lms.map (fun lm => (lm.line_no, lm)) := by
  simpa using foldl_aset_eq lms [] (by simp [akeys]) hnd

theorem alookup_map_pair (lms : List LineMatch) (n : Nat) :
    alookup (lms.map (fun lm => (lm.line_no, lm))) n =
      lms.find? (fun lm => decide (lm.line_no = n)) := by
  induction lms with
  | nil => simp [alookup]
  | cons lm rest ih =>
    by_cases h : lm.line_no = n
    · simp [alookup, List.find?, h]
    · simp only [List.map_cons, alookup, List.find?]
      rw [if_neg (fun hc => h hc.symm), ih]
      have hdec : (decide (lm.line_no = n)) = false := by
        simp only [decide_eq_false_iff_not]
        exact h
      rw [hdec]

theorem mem_aupdOr {κ α : Type} [DecidableEq κ] (m : List (κ × α)) (k : κ) (v : α)
    (f : α → α) (p : κ × α) (hp : p ∈ aupdOr m k v f) :
    p ∈ m ∨ (∃ w, p = (k, f w) ∧ (k, w) ∈ m) ∨ p = (k, v) := by
  induction m with
  | nil =>
    simp [aupdOr] at hp
    exact Or.inr (Or.inr hp)
  | cons q rest ih =>
    obtain ⟨k1, w1⟩ := q
    by_cases hk : k = k1
    · subst hk
      simp only [aupdOr, if_pos rfl] at hp
      rcases List.mem_cons.mp hp with h1 | h1
      · exact Or.inr (Or.inl ⟨w1, h1, List.mem_cons_self _ _⟩)
      · exact Or.inl (List.mem_cons_of_mem _ h1)
    · simp only [aupdOr, if_neg hk] at hp
      rcases List.mem_cons.mp hp with h1 | h1
      · exact Or.inl (h1 ▸ List.mem_cons_self _ _)
      · rcases ih h1 with h2 | h2 | h2
        · exact Or.inl (List.mem_cons_of_mem _ h2)
        · rcases h2 with ⟨w, hw1, hw2⟩
          exact Or.inr (Or.inl ⟨w, hw1, List.mem_cons_of_mem _ hw2⟩)
        · exact Or.inr (Or.inr h2)

theorem goodMap_lineStep (m : List (Nat × LineMatch)) (lm : LineMatch)
    (h : goodMap m) : goodMap (lineStep m lm) := by
  intro p hp
  rcases mem_aupdOr m lm.line_no lm _ p hp with h1 | h1 | h1
  · exact h p h1
  · rcases h1 with ⟨w, hw1, hw2⟩
    subst hw1
    exact h (lm.line_no, w) hw2
  · subst h1; rfl

theorem goodMap_fold_lineStep (bs : List LineMatch) :
    ∀ m, goodMap m → goodMap (bs.foldl lineStep m) := by
  induction bs with
  | nil => intro m h; simpa using h
  | cons lm rest ih =>
    intro m h
    simp only [List.foldl_cons]
    exact ih (lineStep m lm) (goodMap_lineStep m lm h)

theorem fold_lineStep_keys_nodup (bs : List LineMatch) :
    ∀ m, (akeys m).Nodup → (akeys (bs.foldl lineStep m)).Nodup := by
  induction bs with
  | nil => intro m h; simpa using h
  | cons lm rest ih =>
    intro m h
    simp only [List.foldl_cons]
    exact ih (lineStep m lm) (aupdOr_keys_nodup m lm.line_no lm _ h)

theorem fold_lineStep_lookup (bs : List LineMatch) (hb : (lineNos bs).Nodup) :
    ∀ (m : List (Nat × LineMatch)) (n : Nat),
      alookup (bs.foldl lineStep m) n =
        match alookup m n with
        | some lm => some { lm with spans := lm.spans ++ spansAt bs n }
        | none => bs.find? (fun lm => decide (lm.line_no = n)) := by
  induction bs with
  | nil =>
    intro m n
    cases h : alookup m n with
    | none => simp [h]
    | some lm => simp [h, spansAt]
  | cons lm0 rest ih =>
    intro m n
    obtain ⟨hhead, htail⟩ :
        (∀ x ∈ rest, ¬ x.line_no = lm0.line_no) ∧ (List.map LineMatch.line_no rest).Nodup := by
      simpa [lineNos] using hb
    have hnd : (lineNos rest).Nodup := by simpa [lineNos] using htail
    simp only [List.foldl_cons]
    rw [ih hnd (lineStep m lm0) n]
    by_cases hn : n = lm0.line_no
    · subst hn
      have hfilter : rest.filter (fun lm => decide (lm.line_no = lm0.line_no)) = [] := by
        rw [List.filter_eq_nil_iff]
        intro x hx
        simp only [decide_eq_true_eq]
        exact hhead x hx
      have hnone : rest.find? (fun lm => decide (lm.line_no = lm0.line_no)) = none := by
        rw [List.find?_eq_none]
        intro x hx
        simp only [decide_eq_true_eq]
        exact hhead x hx
      have hspansrest : spansAt rest lm0.line_no = [] := by
        simp [spansAt, hfilter]
      have hspcons : spansAt (lm0 :: rest) lm0.line_no = lm0.spans := by
        simp [spansAt, List.filter_cons, hfilter]
      have hfcons : (lm0 :: rest).find? (fun lm => decide (lm.line_no = lm0.line_no)) =
          some lm0 := by
        simp [List.find?]
      rw [lineStep, aupdOr_lookup m lm0.line_no lm0 _ lm0.line_no, if_pos rfl]
      cases ham : alookup m lm0.line_no with
      | some w =>
        simp only [ham]
        rw [hspcons, hspansrest]
        simp [List.append_assoc]
      | none =>
        simp only [ham]
        rw [hfcons, hspansrest]
        simp
    · have hdec : (decide (lm0.line_no = n)) = false := by
        simp only [decide_eq_false_iff_not]
        exact fun he => hn he.symm
      have hsp : spansAt (lm0 :: rest) n = spansAt rest n := by
        simp only [spansAt, List.filter_cons, hdec]
        simp
      have hfind : (lm0 :: rest).find? (fun lm => decide (lm.line_no = n)) =
          rest.find? (fun lm => decide (lm.line_no = n)) := by
        simp only [List.find?, hdec]
      rw [lineStep, aupdOr_lookup m lm0.line_no lm0 _ n, if_neg hn, hsp, hfind]

theorem spansAt_eq_nil_of_find_none (lms : List LineMatch) (n : Nat)
    (hf : lms.find? (fun x => decide (x.line_no = n)) = none) : spansAt lms n = [] := by
  rw [List.find?_eq_none] at hf
  have hfil : lms.filter (fun x => decide (x.line_no = n)) = [] :=
    List.filter_eq_nil_iff.mpr hf
  simp [spansAt, hfil]

theorem spansAt_eq_of_find (lms : List LineMatch) (n : Nat) :
    (lineNos lms).Nodup → ∀ lm, lms.find? (fun x => decide (x.line_no = n)) = some lm →
      spansAt lms n = lm.spans := by
  induction lms with
  | nil => intro _ lm hf; simp [List.find?] at hf
  | cons x rest ih =>
    intro hnd lm hf
    obtain ⟨hhead, htail⟩ :
        (∀ y ∈ rest, ¬ y.line_no = x.line_no) ∧ (List.map LineMatch.line_no rest).Nodup := by
      simpa [lineNos] using hnd
    by_cases hx : x.line_no = n
    · have hfx : (x :: rest).find? (fun y => decide (y.line_no = n)) = some x := by
        simp [List.find?, hx]
      rw [hf] at hfx
      injection hfx with hlm
      subst hlm
      have hfil : rest.filter (fun y => decide (y.line_no = n)) = [] := by
        rw [List.filter_eq_nil_iff]
        intro y hy
        simp only [decide_eq_true_eq]
        intro he
        exact hhead y hy (he.trans hx.symm)
      simp [spansAt, List.filter_cons, hx, hfil]
    · have hdec : (decide (x.line_no = n)) = false := by
        simp only [decide_eq_false_iff_not]; exact hx
      have hsp : spansAt (x :: rest) n = spansAt rest n := by
        simp only [spansAt, List.filter_cons, hdec]
        simp
      rw [hsp]
      refine ih (by simpa [lineNos] using htail) lm ?_
      simpa [List.find?, hdec] using hf

/-- The merged per-line dictionary built inside `combine_with`. -/
def mergedLines (as bs : List LineMatch) : List (Nat × LineMatch) :=
  bs.foldl lineStep (linesByNo as)

theorem combine_with_line_matches (a b : SearchResult) :
    (combine_with a b).line_matches =
      isortLe lmLe ((mergedLines a.line_matches b.line_matches).map Prod.snd) := rfl

theorem mergedLines_keys_nodup (as bs : List LineMatch) (ha : (lineNos as).Nodup) :
    (akeys (mergedLines as bs)).Nodup := by
  refine fold_lineStep_keys_nodup bs (linesByNo as) ?_
  rw [linesByNo_eq as ha]
  simpa [akeys, List.map_map, Function.comp, lineNos] using ha

theorem mergedLines_goodMap (as bs : List LineMatch) (ha : (lineNos as).Nodup) :
    goodMap (mergedLines as bs) := by
  refine goodMap_fold_lineStep bs (linesByNo as) ?_
  rw [linesByNo_eq as ha]
  intro p hp
  rcases List.mem_map.mp hp with ⟨lm, _, he⟩
  subst he
  rfl

theorem mergedLines_lookup (as bs : List LineMatch) (ha : (lineNos as).Nodup)
    (hb : (lineNos bs).Nodup) (n : Nat) :
    alookup (mergedLines as bs) n =
      match as.find? (fun x => decide (x.line_no = n)) with
      | some la => some { la with spans := la.spans ++ spansAt bs n }
      | none => bs.find? (fun x => decide (x.line_no = n)) := by
  rw [mergedLines, fold_lineStep_lookup bs hb (linesByNo as) n, linesByNo_eq as ha,
    alookup_map_pair]

theorem mergedLines_entry (as bs : List LineMatch) (ha : (lineNos as).Nodup)
    (hb : (lineNos bs).Nodup) (p : Nat × LineMatch) (hp : p ∈ mergedLines as bs) :
    p.2.line_no = p.1 ∧ p.2.spans = spansAt as p.1 ++ spansAt bs p.1 := by
  have hgood := mergedLines_goodMap as bs ha p hp
  refine ⟨hgood, ?_⟩
  have hnd := mergedLines_keys_nodup as bs ha
  obtain ⟨k, lm⟩ := p
  simp only at hgood ⊢
  have hlook : alookup (mergedLines as bs) k = some lm :=
    alookup_eq_some_of_mem_nodup _ k lm hnd hp
  rw [mergedLines_lookup as bs ha hb k] at hlook
  cases hfa : as.find? (fun x => decide (x.line_no = k)) with
  | some la =>
    rw [hfa] at hlook
    injection hlook with hlm
    subst hlm
    rw [spansAt_eq_of_find as k ha la hfa]
  | none =>
    rw [hfa] at hlook
    have hspa : spansAt as k = [] := spansAt_eq_nil_of_find_none as k hfa
    have hspb : spansAt bs k = lm.spans := spansAt_eq_of_find bs k hb lm hlook
    rw [hspa, hspb]
    simp

theorem mergedLines_mem_keys (as bs : List LineMatch) (ha : (lineNos as).Nodup)
    (hb : (lineNos bs).Nodup) (n : Nat) :
    n ∈ akeys (mergedLines as bs) ↔ n ∈ lineNos as ∨ n ∈ lineNos bs := by
  rw [← alookup_isSome_iff_mem, mergedLines_lookup as bs ha hb n]
  cases hfa : as.find? (fun x => decide (x.line_no = n)) with
  | some la =>
    simp only [Option.isSome_some, true_iff]
    left
    have hmem := List.mem_of_find?_eq_some hfa
    have hpred := List.find?_some hfa
    simp only [decide_eq_true_eq] at hpred
    rw [lineNos, List.mem_map]
    exact ⟨la, hmem, hpred⟩
  | none =>
    have hna : n ∉ lineNos as := by
      rw [List.find?_eq_none] at hfa
      rw [lineNos, List.mem_map]
      rintro ⟨x, hx, he⟩
      exact hfa x hx (by simp [he])
    simp only [hna, false_or]
    constructor
    · intro h
      cases hfb : bs.find? (fun x => decide (x.line_no = n)) with
      | none => rw [hfb] at h; simp at h
      | some lb =>
        have hmem := List.mem_of_find?_eq_some hfb
        have hpred := List.find?_some hfb
        simp only [decide_eq_true_eq] at hpred
        rw [lineNos, List.mem_map]
        exact ⟨lb, hmem, hpred⟩
    · intro h
      rw [lineNos, List.mem_map] at h
      rcases h with ⟨lb, hlb, he⟩
      have : (bs.find? (fun x => decide (x.line_no = n))).isSome := by
        rw [List.find?_isSome]
        exact ⟨lb, hlb, by simp [he]⟩
      cases hfb : bs.find? (fun x => decide (x.line_no = n)) with
      | none => rw [hfb] at this; simp at this
      | some lb2 => simp

theorem mergedLines_snd_lineNos (as bs : List LineMatch) (ha : (lineNos as).Nodup) :
    ((mergedLines as bs).map Prod.snd).map LineMatch.line_no = akeys (mergedLines as bs) := by
  rw [List.map_map]
  exact List.map_congr_left (fun p hp => mergedLines_goodMap as bs ha p hp)

/-- **C5.** For results on the same document with at most one `LineMatch`
per line number (the `SearchResult` data-model invariant),
`combine_with` adds the match counts with no deduplication, returns the
concatenation of the title spans sorted by start then end with
duplicates retained, and merges line matches by line number: exactly one
entry per line number occurring in either side, in ascending order, its
spans the concatenation of both sides' spans for that line. -/
theorem c5_combine_with (a b : SearchResult)
    (ha : (lineNos a.line_matches).Nodup)
    (hb : (lineNos b.line_matches).Nodup) :
    (combine_with a b).matchCount = a.matchCount + b.matchCount ∧
    ((combine_with a b).title_spans).Perm (a.title_spans ++ b.title_spans) ∧
    ((combine_with a b).title_spans).Pairwise
      (fun p q : Span => p.1 < q.1 ∨ (p.1 = q.1 ∧ p.2 ≤ q.2)) ∧
    (lineNos (combine_with a b).line_matches).Pairwise (· < ·) ∧
    (∀ n, n ∈ lineNos (combine_with a b).line_matches ↔
      n ∈ lineNos a.line_matches ∨ n ∈ lineNos b.line_matches) ∧
    (∀ lm ∈ (combine_with a b).line_matches,
      lm.spans = spansAt a.line_matches lm.line_no ++ spansAt b.line_matches lm.line_no) := by
  have hlmeq := combine_with_line_matches a b
  have hperm : ((combine_with a b).line_matches).Perm
      ((mergedLines a.line_matches b.line_matches).map Prod.snd) := by
    rw [hlmeq]; exact isortLe_perm lmLe _
  have hpermNos : (lineNos (combine_with a b).line_matches).Perm
      (akeys (mergedLines a.line_matches b.line_matches)) := by
    rw [← mergedLines_snd_lineNos a.line_matches b.line_matches ha]
    exact hperm.map LineMatch.line_no
  refine ⟨rfl, isortLe_perm spanLe _, ?_, ?_, ?_, ?_⟩
  · have h := isortLe_pairwise spanLe spanLe_total spanLe_trans (a.title_spans ++ b.title_spans)
    refine h.imp ?_
    intro p q hpq
    simpa [spanLe, decide_eq_true_eq] using hpq
  · have hle : (lineNos (combine_with a b).line_matches).Pairwise (· ≤ ·) := by
      rw [hlmeq, lineNos]
      rw [List.pairwise_map]
      have h := isortLe_pairwise lmLe lmLe_total lmLe_trans
        ((mergedLines a.line_matches b.line_matches).map Prod.snd)
      refine h.imp ?_
      intro p q hpq
      simpa [lmLe, decide_eq_true_eq] using hpq
    have hnd : (lineNos (combine_with a b).line_matches).Nodup := by
      rw [hpermNos.nodup_iff]
      exact mergedLines_keys_nodup a.line_matches b.line_matches ha
    refine (hle.and hnd).imp ?_
    intro m n hmn
    exact Nat.lt_of_le_of_ne hmn.1 hmn.2
  · intro n
    rw [hpermNos.mem_iff]
    exact mergedLines_mem_keys a.line_matches b.line_matches ha hb n
  · intro lm hlm
    have hlm2 : lm ∈ (mergedLines a.line_matches b.line_matches).map Prod.snd :=
      hperm.mem_iff.mp hlm
    rcases List.mem_map.mp hlm2 with ⟨p, hp, he⟩
    have hfacts := mergedLines_entry a.line_matches b.line_matches ha hb p hp
    rw [← he, hfacts.1]
    exact hfacts.2

/-- **C5, witness.** `c5_combine_with` at two concrete one-line results
on the same document. -/
theorem c5_combine_with_witness :
    (combine_with
        ⟨strToL "T", [(0, 1)], [⟨1, strToL "x y", [(0, 1)]⟩], 2⟩
        ⟨strToL "T", [], [⟨1, strToL "x y", [(2, 3)]⟩, ⟨2, strToL "z", [(0, 1)]⟩], 2⟩).matchCount =
      2 + 2 ∧
    (∀ lm ∈ (combine_with
        ⟨strToL "T", [(0, 1)], [⟨1, strToL "x y", [(0, 1)]⟩], 2⟩
        ⟨strToL "T", [], [⟨1, strToL "x y", [(2, 3)]⟩, ⟨2, strToL "z", [(0, 1)]⟩], 2⟩).line_matches,
      lm.spans = spansAt [⟨1, strToL "x y", [(0, 1)]⟩] lm.line_no ++
        spansAt [⟨1, strToL "x y", [(2, 3)]⟩, ⟨2, strToL "z", [(0, 1)]⟩] lm.line_no) := by
  have h := c5_combine_with
    ⟨strToL "T", [(0, 1)], [⟨1, strToL "x y", [(0, 1)]⟩], 2⟩
    ⟨strToL "T", [], [⟨1, strToL "x y", [(2, 3)]⟩, ⟨2, strToL "z", [(0, 1)]⟩], 2⟩
    (by decide) (by decide)
  exact ⟨h.1, h.2.2.2.2.2⟩

/-! ### Span multisets of a result (for the algebraic laws) -/

/-- The multiset (as a list) of `(line number, span)` pairs of a list of
line matches. -/
def linePairs (lms : List LineMatch) : List (Nat × Span) :=
  (lms.map (fun lm => lm.spans.map (fun s => (lm.line_no, s)))).flatten

/-- The `(key, span)` pairs stored in a merge dictionary. -/
def pairsOfMap (m : List (Nat × LineMatch)) : List (Nat × Span) :=
  (m.map (fun p => (p.2).spans.map (fun s => (p.1, s)))).flatten

theorem pairsOfMap_lineStep (m : List (Nat × LineMatch)) (lm : LineMatch) :
    (pairsOfMap (lineStep m lm)).Perm
      (pairsOfMap m ++ lm.spans.map (fun s => (lm.line_no, s))) := by
  induction m with
  | nil =>
    simp [lineStep, aupdOr, pairsOfMap]
  | cons q rest ih =>
    obtain ⟨k1, w⟩ := q
    by_cases hk : lm.line_no = k1
    · subst hk
      have hred : lineStep ((lm.line_no, w) :: rest) lm =
          (lm.line_no, { w with spans := w.spans ++ lm.spans }) :: rest := by
        simp [lineStep, aupdOr]
      rw [hred]
      simp only [pairsOfMap, List.map_cons, List.flatten_cons, List.map_append,
        List.append_assoc]
      exact List.Perm.append_left _ List.perm_append_comm
    · have hred : lineStep ((k1, w) :: rest) lm = (k1, w) :: lineStep rest lm := by
        simp [lineStep, aupdOr, hk]
      rw [hred]
      simp only [pairsOfMap, List.map_cons, List.flatten_cons, List.append_assoc]
      refine List.Perm.append_left _ ?_
      simpa [pairsOfMap, List.append_assoc] using ih

theorem pairsOfMap_fold_lineStep (bs : List LineMatch) :
    ∀ m : List (Nat × LineMatch),
      (pairsOfMap (bs.foldl lineStep m)).Perm (pairsOfMap m ++ linePairs bs) := by
  induction bs with
  | nil => intro m; simp [linePairs]
  | cons lm rest ih =>
    intro m
    simp only [List.foldl_cons, linePairs, List.map_cons, List.flatten_cons]
    refine List.Perm.trans (ih (lineStep m lm)) ?_
    refine List.Perm.trans (List.Perm.append_right _ (pairsOfMap_lineStep m lm)) ?_
    simp only [linePairs]
    simp [List.append_assoc]

theorem pairsOfMap_linesByNo (as : List LineMatch) (ha : (lineNos as).Nodup) :
    pairsOfMap (linesByNo as) = linePairs as := by
  rw [linesByNo_eq as ha, pairsOfMap, linePairs, List.map_map]
  rfl

theorem linePairs_perm_of_perm (l1 l2 : List LineMatch) (h : l1.Perm l2) :
    (linePairs l1).Perm (linePairs l2) :=
  List.Perm.flatten (h.map _)

/-- The `(line, span)` pair multiset of a combination is the sum of the
two sides' multisets (first argument assumed duplicate-free in line
numbers, as every result built by the engine is). -/
theorem linePairs_combine (a b : SearchResult) (ha : (lineNos a.line_matches).Nodup) :
    (linePairs (combine_with a b).line_matches).Perm
      (linePairs a.line_matches ++ linePairs b.line_matches) := by
  rw [combine_with_line_matches]
  have h1 : (linePairs (isortLe lmLe ((mergedLines a.line_matches b.line_matches).map Prod.snd))).Perm
      (linePairs ((mergedLines a.line_matches b.line_matches).map Prod.snd)) :=
    linePairs_perm_of_perm _ _ (isortLe_perm lmLe _)
  refine h1.trans ?_
  have h2 : linePairs ((mergedLines a.line_matches b.line_matches).map Prod.snd) =
      pairsOfMap (mergedLines a.line_matches b.line_matches) := by
    rw [linePairs, pairsOfMap, List.map_map]
    congr 1
    refine List.map_congr_left ?_
    intro p hp
    have := mergedLines_goodMap a.line_matches b.line_matches ha p hp
    simp only [Function.comp]
    rw [this]
  rw [h2]
  refine (pairsOfMap_fold_lineStep b.line_matches (linesByNo a.line_matches)).trans ?_
  rw [pairsOfMap_linesByNo a.line_matches ha]

/-- `combine_with` keeps line numbers duplicate-free (only the first
argument needs to be duplicate-free for the merge dictionary keys). -/
theorem combine_lineNos_nodup (a b : SearchResult) (ha : (lineNos a.line_matches).Nodup) :
    (lineNos (combine_with a b).line_matches).Nodup := by
  have hperm : (lineNos (combine_with a b).line_matches).Perm
      (akeys (mergedLines a.line_matches b.line_matches)) := by
    rw [combine_with_line_matches, lineNos,
      ← mergedLines_snd_lineNos a.line_matches b.line_matches ha]
    exact (isortLe_perm lmLe _).map LineMatch.line_no
  rw [hperm.nodup_iff]
  exact mergedLines_keys_nodup a.line_matches b.line_matches ha

theorem title_spans_combine (a b : SearchResult) :
    ((combine_with a b).title_spans).Perm (a.title_spans ++ b.title_spans) :=
  isortLe_perm spanLe _

/-- **C6.** `combine_with` is associative and commutative in its numeric
and set-membership effects: the combined `matches` total, the multiset
of title spans and the multiset of `(line, span)` pairs agree between
`combine(combine(a,b),c)` and `combine(a,combine(b,c))`, and between
`combine(a,b)` and `combine(b,a)`, for results whose line matches are
keyed by distinct line numbers. -/
theorem c6_combine_assoc_comm (a b c : SearchResult)
    (ha : (lineNos a.line_matches).Nodup)
    (hb : (lineNos b.line_matches).Nodup) :
    (combine_with (combine_with a b) c).matchCount =
      (combine_with a (combine_with b c)).matchCount ∧
    ((combine_with (combine_with a b) c).title_spans).Perm
      ((combine_with a (combine_with b c)).title_spans) ∧
    (linePairs (combine_with (combine_with a b) c).line_matches).Perm
      (linePairs (combine_with a (combine_with b c)).line_matches) ∧
    (combine_with a b).matchCount = (combine_with b a).matchCount ∧
    ((combine_with a b).title_spans).Perm ((combine_with b a).title_spans) ∧
    (linePairs (combine_with a b).line_matches).Perm
      (linePairs (combine_with b a).line_matches) := by
  refine ⟨?_, ?_, ?_, ?_, ?_, ?_⟩
  · show ((a.matchCount + b.matchCount) + c.matchCount) =
      (a.matchCount + (b.matchCount + c.matchCount))
    exact Nat.add_assoc _ _ _
  · refine (title_spans_combine (combine_with a b) c).trans ?_
    refine List.Perm.trans ?_ (title_spans_combine a (combine_with b c)).symm
    refine List.Perm.trans (List.Perm.append_right _ (title_spans_combine a b)) ?_
    refine List.Perm.trans ?_ (List.Perm.append_left _ (title_spans_combine b c)).symm
    simp [List.append_assoc]
  · refine (linePairs_combine (combine_with a b) c (combine_lineNos_nodup a b ha)).trans ?_
    refine List.Perm.trans ?_ (linePairs_combine a (combine_with b c) ha).symm
    refine List.Perm.trans (List.Perm.append_right _ (linePairs_combine a b ha)) ?_
    refine List.Perm.trans ?_ (List.Perm.append_left _ (linePairs_combine b c hb)).symm
    simp [List.append_assoc]
  · show a.matchCount + b.matchCount = b.matchCount + a.matchCount
    exact Nat.add_comm _ _
  · refine (title_spans_combine a b).trans ?_
    refine List.Perm.trans List.perm_append_comm (title_spans_combine b a).symm
  · refine (linePairs_combine a b ha).trans ?_
    refine List.Perm.trans List.perm_append_comm (linePairs_combine b a hb).symm

/-- **C6, witness.** The algebraic laws at three concrete results. -/
theorem c6_combine_assoc_comm_witness :
    (combine_with (combine_with
        ⟨strToL "T", [(0, 1)], [⟨1, strToL "x", [(0, 1)]⟩], 2⟩
        ⟨strToL "T", [(2, 3)], [⟨2, strToL "y", [(1, 2)]⟩], 2⟩)
        ⟨strToL "T", [], [⟨1, strToL "x", [(4, 5)]⟩], 1⟩).matchCount =
      (combine_with ⟨strToL "T", [(0, 1)], [⟨1, strToL "x", [(0, 1)]⟩], 2⟩
        (combine_with ⟨strToL "T", [(2, 3)], [⟨2, strToL "y", [(1, 2)]⟩], 2⟩
          ⟨strToL "T", [], [⟨1, strToL "x", [(4, 5)]⟩], 1⟩)).matchCount :=
  (c6_combine_assoc_comm
    ⟨strToL "T", [(0, 1)], [⟨1, strToL "x", [(0, 1)]⟩], 2⟩
    ⟨strToL "T", [(2, 3)], [⟨2, strToL "y", [(1, 2)]⟩], 2⟩
    ⟨strToL "T", [], [⟨1, strToL "x", [(4, 5)]⟩], 1⟩
    (by decide) (by decide)).1

/-! ### The match-count invariant (C9) -/

/-- The invariant relating a result's `matches` field to its spans:
`matches = len(title_spans) + sum(len(lm.spans))`. -/
def countOk (r : SearchResult) : Prop :=
  r.matchCount = r.title_spans.length + (r.line_matches.map (fun lm => lm.spans.length)).sum

/-- Results as built by the engine: the counting invariant plus at most
one `LineMatch` per line number. -/
def wfResult (r : SearchResult) : Prop := countOk r ∧ (lineNos r.line_matches).Nodup

/-- A result with two `LineMatch` entries for the same line number. -/
def dupLinesResult : SearchResult :=
  ⟨strToL "t", [], [⟨1, strToL "xy", [(0, 1)]⟩, ⟨1, strToL "xy", [(1, 2)]⟩], 2⟩

theorem linePairs_length (lms : List LineMatch) :
    (linePairs lms).length = (lms.map (fun lm => lm.spans.length)).sum := by
  simp only [linePairs, List.length_flatten, List.map_map]
  congr 1
  refine List.map_congr_left ?_
  intro lm _
  simp [Function.comp]

theorem wfResult_combine (a b : SearchResult) (hwa : wfResult a) (hwb : wfResult b) :
    wfResult (combine_with a b) := by
  obtain ⟨hca, hna⟩ := hwa
  obtain ⟨hcb, hnb⟩ := hwb
  constructor
  · have hts : ((combine_with a b).title_spans).length =
        a.title_spans.length + b.title_spans.length := by
      rw [(title_spans_combine a b).length_eq, List.length_append]
    have hlp : (linePairs (combine_with a b).line_matches).length =
        (linePairs a.line_matches).length + (linePairs b.line_matches).length := by
      rw [(linePairs_combine a b hna).length_eq, List.length_append]
    have hmc : (combine_with a b).matchCount = a.matchCount + b.matchCount := rfl
    rw [countOk, hmc, hts, ← linePairs_length, hlp, linePairs_length, linePairs_length]
    rw [countOk] at hca hcb
    omega
  · exact combine_lineNos_nodup a b hna

theorem wfResult_minimal (idx : Index) (docId : Nat) (p : Posting) :
    wfResult (minimalResult idx docId p) := by
  cases hln : p.line_no with
  | none =>
    constructor
    · simp [minimalResult, hln, countOk]
    · simp [minimalResult, hln, lineNos]
  | some ln =>
    constructor
    · simp [minimalResult, hln, countOk]
    · simp [minimalResult, hln, lineNos]

theorem foldl_inv_mem {α β : Type} (P : α → Prop) (step : α → β → α) :
    ∀ (l : List β), (∀ acc x, x ∈ l → P acc → P (step acc x)) →
      ∀ acc, P acc → P (l.foldl step acc) := by
  intro l
  induction l with
  | nil => intro _ acc h; simpa using h
  | cons x xs ih =>
    intro hstep acc h
    simp only [List.foldl_cons]
    exact ih (fun acc2 y hy h2 => hstep acc2 y (List.mem_cons_of_mem x hy) h2) _
      (hstep acc x (List.mem_cons_self x xs) h)

/-- All values of a result mapping satisfy the engine invariant. -/
def allWf (m : List (Nat × SearchResult)) : Prop := ∀ p ∈ m, wfResult p.2

theorem allWf_aupdOr (m : List (Nat × SearchResult)) (k : Nat) (v : SearchResult)
    (f : SearchResult → SearchResult) (hm : allWf m) (hv : wfResult v)
    (hf : ∀ w, wfResult w → wfResult (f w)) : allWf (aupdOr m k v f) := by
  intro p hp
  rcases mem_aupdOr m k v f p hp with h | h | h
  · exact hm p h
  · rcases h with ⟨w, hw1, hw2⟩
    subst hw1
    exact hf w (hm (k, w) hw2)
  · subst h
    exact hv

theorem allWf_search_for (idx : Index) (token : List Char) :
    allWf (search_for idx token) := by
  rw [search_for]
  cases halk : alookup idx.dictionary (stem token) with
  | none => intro p hp; simp at hp
  | some plist =>
    refine foldl_inv_mem allWf _ plist ?_ [] (by intro p hp; simp at hp)
    intro results dp _ hres
    refine foldl_inv_mem allWf _ dp.2 ?_ results hres
    intro results2 p _ hres2
    exact allWf_aupdOr results2 dp.1 _ _ hres2 (wfResult_minimal idx dp.1 p)
      (fun w hw => wfResult_combine w _ hw (wfResult_minimal idx dp.1 p))

theorem allWf_append (m1 m2 : List (Nat × SearchResult)) (h1 : allWf m1) (h2 : allWf m2) :
    allWf (m1 ++ m2) := by
  intro p hp
  rcases List.mem_append.mp hp with h | h
  · exact h1 p h
  · exact h2 p h

theorem allWf_searchStep (idx : Index) (mode : List Char)
    (combined : List (Nat × SearchResult)) (word : List Char) (h : allWf combined) :
    allWf (searchStep idx mode combined word) := by
  rw [searchStep]
  by_cases hemp : combined.isEmpty
  · simp only [hemp, if_true]
    exact allWf_search_for idx word
  · simp only [hemp, if_false]
    by_cases hAnd : mode = strToL "AND"
    · simp only [hAnd, if_true]
      refine foldl_inv_mem allWf _ combined ?_ [] (by intro p hp; simp at hp)
      intro nc dr hdr hnc
      cases hlook : alookup (search_for idx word) dr.1 with
      | none => simpa [hlook] using hnc
      | some r2 =>
        simp only [hlook]
        refine allWf_append nc [(dr.1, combine_with dr.2 r2)] hnc ?_
        intro p hp
        rw [List.mem_singleton] at hp
        subst hp
        exact wfResult_combine dr.2 r2 (h dr hdr)
          (allWf_search_for idx word (dr.1, r2)
            (mem_of_alookup_eq_some (search_for idx word) dr.1 r2 hlook))
    · simp only [hAnd, if_false]
      by_cases hOr : mode = strToL "OR"
      · simp only [hOr, if_true]
        refine foldl_inv_mem allWf _ (search_for idx word) ?_ combined h
        intro comb dr hdr hcomb
        exact allWf_aupdOr comb dr.1 dr.2 _ hcomb (allWf_search_for idx word dr hdr)
          (fun w hw => wfResult_combine w dr.2 hw (allWf_search_for idx word dr hdr))
      · simpa [hOr] using h

/-- **C9, counterexample.** The preservation step of the claim fails for
raw `SearchResult` values with two `LineMatch` entries on the same line:
both inputs satisfy the count equality, the combination does not (the
dict comprehension keeps only the last entry per line of the left
argument, but the count stays additive). -/
theorem c9_dup_counterexample :
    countOk dupLinesResult ∧ ¬ countOk (combine_with dupLinesResult dupLinesResult) := by
  constructor
  · unfold countOk
    decide
  · unfold countOk
    decide

/-- **C9, amended.** Every mapping value produced by `Index.search_for`
satisfies `matches = len(title_spans) + sum(len(lm.spans))` together
with the data-model invariant of at most one `LineMatch` per line;
`combine_with` preserves this pair of invariants; and consequently every
`SearchResult` returned by `Searcher.search` satisfies the count
equality. -/
theorem c9_count_invariant :
    (∀ (idx : Index) (token : List Char) (p : Nat × SearchResult),
        p ∈ search_for idx token →
          countOk p.2 ∧ (lineNos p.2.line_matches).Nodup) ∧
    (∀ a b : SearchResult, wfResult a → wfResult b → wfResult (combine_with a b)) ∧
    (∀ (idx : Index) (query mode : List Char) (r : SearchResult),
        r ∈ search idx query mode → countOk r) := by
  refine ⟨?_, wfResult_combine, ?_⟩
  · intro idx token p hp
    exact allWf_search_for idx token p hp
  · intro idx query mode r hr
    rw [search] at hr
    have hmem : r ∈ ((splitWs query).foldl (searchStep idx mode) []).map Prod.snd :=
      (isortLe_perm _ _).mem_iff.mp hr
    rcases List.mem_map.mp hmem with ⟨p, hp, he⟩
    have hwf : allWf ((splitWs query).foldl (searchStep idx mode) []) := by
      refine foldl_inv_mem allWf _ (splitWs query) ?_ [] (by intro q hq; simp at hq)
      intro acc word _ hacc
      exact allWf_searchStep idx mode acc word hacc
    rw [← he]
    exact (hwf p hp).1

/-! ### The spec's concrete two-sonnet corpus -/

/-- Doc 1 of the spec's test scenario. -/
def sonnet1 : Sonnet :=
  ⟨1, strToL "Sonnet 1: Test", [strToL "From fairest creatures we desire increase"]⟩

/-- Doc 2 of the spec's test scenario (the apostrophe of `beauty's`
written as a character code). -/
def sonnet2 : Sonnet :=
  ⟨2, strToL "Sonnet 2: Other",
    [strToL "Thy beauty" ++ Char.ofNat 39 :: strToL "s image dost thou rose increase"]⟩

/-- The index over the spec's scenario corpus. -/
def specIndex : Index := buildIndex [sonnet1, sonnet2]

/-- **C9, witness.** The count invariant at a concrete result of
`search` on the scenario corpus. -/
theorem c9_count_invariant_witness :
    countOk ⟨strToL "Sonnet 1: Test", [],
      [⟨1, strToL "From fairest creatures we desire increase", [(33, 41)]⟩], 1⟩ :=
  c9_count_invariant.2.2 specIndex (strToL "increase") (strToL "OR")
    ⟨strToL "Sonnet 1: Test", [],
      [⟨1, strToL "From fairest creatures we desire increase", [(33, 41)]⟩], 1⟩
    (by decide)

/-! ### The AND search with an unmatched first word (C1) -/

/-- **C1.** On the scenario corpus, `search_for("zzz")` is the empty
mapping, yet `search("zzz increase", "AND")` returns both documents
matching `increase` instead of the empty list: the `if not
combined_results` test re-seeds the running set from the second word
because the empty dict of the first word is falsy, contradicting the
claimed AND semantics (and the loop's own `only keep sonnets that have
ALL words` comment). -/
theorem c1_and_falsy_bug :
    search_for specIndex (strToL "zzz") = [] ∧
    search specIndex (strToL "zzz increase") (strToL "AND") ≠ [] ∧
    (search specIndex (strToL "zzz increase") (strToL "AND")).map SearchResult.title =
      [strToL "Sonnet 1: Test", strToL "Sonnet 2: Other"] := by
  refine ⟨by decide, by decide, by decide⟩

/-! ### Unknown search modes (C2) -/

/-- What the word loop degenerates to for an unrecognized mode: the
running set is only ever replaced when it is empty, so the result is the
first word's non-empty `search_for` output (or empty). -/
def firstHit (idx : Index) (ws : List (List Char)) : List (Nat × SearchResult) :=
  ws.foldl (fun c w => if c.isEmpty then search_for idx w else c) []

theorem searchStep_unknown_mode (idx : Index) (mode : List Char)
    (h1 : mode ≠ strToL "AND") (h2 : mode ≠ strToL "OR")
    (combined : List (Nat × SearchResult)) (word : List Char) :
    searchStep idx mode combined word =
      if combined.isEmpty then search_for idx word else combined := by
  rw [searchStep]
  by_cases hemp : combined.isEmpty
  · simp [hemp]
  · simp [hemp, h1, h2]

/-- **C2, counterexample.** With the unrecognized mode `XOR` and the
two-word query `rose increase`, `search` raises no error and returns
exactly the single-word result of the first word, which is non-empty. -/
theorem c2_xor_counterexample :
    search specIndex (strToL "rose increase") (strToL "XOR") =
      search specIndex (strToL "rose") (strToL "XOR") ∧
    search specIndex (strToL "rose increase") (strToL "XOR") ≠ [] := by
  refine ⟨by decide, by decide⟩

/-- **C2, amended.** For every mode other than `AND` and `OR`, `search`
signals no error: it returns the title-sorted values of the first
query word whose `search_for` output is non-empty (so for a first word
present in the index, it silently behaves like a single-word search of
that word). -/
theorem c2_unknown_mode (idx : Index) (query mode : List Char)
    (h1 : mode ≠ strToL "AND") (h2 : mode ≠ strToL "OR") :
    search idx query mode =
      isortLe (fun a b => lexLe a.title b.title) ((firstHit idx (splitWs query)).map Prod.snd) := by
  rw [search, firstHit]
  have hfold : ∀ (ws : List (List Char)) (acc : List (Nat × SearchResult)),
      ws.foldl (searchStep idx mode) acc =
        ws.foldl (fun c w => if c.isEmpty then search_for idx w else c) acc := by
    intro ws
    induction ws with
    | nil => intro acc; rfl
    | cons w rest ih =>
      intro acc
      simp only [List.foldl_cons]
      rw [searchStep_unknown_mode idx mode h1 h2 acc w, ih]
  rw [hfold]

/-- **C2, witness.** The amended description at the concrete `XOR`
query. -/
theorem c2_unknown_mode_witness :
    search specIndex (strToL "rose increase") (strToL "XOR") =
      isortLe (fun a b => lexLe a.title b.title)
        ((firstHit specIndex (splitWs (strToL "rose increase"))).map Prod.snd) :=
  c2_unknown_mode specIndex (strToL "rose increase") (strToL "XOR")
    (by decide) (by decide)

/-! ### `aupd` lemmas (for the index dictionary) -/

theorem mem_aupd {κ α : Type} [DecidableEq κ] (m : List (κ × α)) (k : κ) (dflt : α)
    (f : α → α) (p : κ × α) (hp : p ∈ aupd m k dflt f) :
    p ∈ m ∨ (∃ w, p = (k, f w) ∧ (k, w) ∈ m) ∨ p = (k, f dflt) := by
  induction m with
  | nil =>
    simp [aupd] at hp
    exact Or.inr (Or.inr hp)
  | cons q rest ih =>
    obtain ⟨k1, w1⟩ := q
    by_cases hk : k = k1
    · subst hk
      simp only [aupd, if_pos rfl] at hp
      rcases List.mem_cons.mp hp with h1 | h1
      · exact Or.inr (Or.inl ⟨w1, h1, List.mem_cons_self _ _⟩)
      · exact Or.inl (List.mem_cons_of_mem _ h1)
    · simp only [aupd, if_neg hk] at hp
      rcases List.mem_cons.mp hp with h1 | h1
      · exact Or.inl (h1 ▸ List.mem_cons_self _ _)
      · rcases ih h1 with h2 | h2 | h2
        · exact Or.inl (List.mem_cons_of_mem _ h2)
        · rcases h2 with ⟨w, hw1, hw2⟩
          exact Or.inr (Or.inl ⟨w, hw1, List.mem_cons_of_mem _ hw2⟩)
        · exact Or.inr (Or.inr h2)

theorem aupd_keys {κ α : Type} [DecidableEq κ] (m : List (κ × α)) (k : κ) (dflt : α)
    (f : α → α) :
    akeys (aupd m k dflt f) = if k ∈ akeys m then akeys m else akeys m ++ [k] := by
  induction m with
  | nil => simp [aupd, akeys]
  | cons p rest ih =>
    obtain ⟨k1, w⟩ := p
    by_cases hk : k = k1
    · subst hk
      simp [aupd, akeys]
    · simp only [aupd, if_neg hk, akeys, List.map_cons]
      by_cases hmem : k ∈ akeys rest
      · rw [if_pos (by simpa [akeys, hk] using hmem)]
        have ih2 := ih
        rw [if_pos hmem] at ih2
        simp only [akeys] at ih2
        rw [ih2]
      · rw [if_neg (by simpa [akeys, hk] using hmem)]
        have ih2 := ih
        rw [if_neg hmem] at ih2
        simp only [akeys] at ih2
        rw [ih2]
        simp

theorem aupd_keys_nodup {κ α : Type} [DecidableEq κ] (m : List (κ × α)) (k : κ) (dflt : α)
    (f : α → α) (h : (akeys m).Nodup) : (akeys (aupd m k dflt f)).Nodup := by
  rw [aupd_keys]
  by_cases hmem : k ∈ akeys m
  · simpa [hmem] using h
  · simp only [hmem, if_false]
    refine List.Nodup.append h (List.nodup_singleton k) ?_
    intro a ha hb
    rw [List.mem_singleton] at hb
    subst hb
    exact hmem ha

theorem aupdOr_append_last {κ α : Type} [DecidableEq κ] (m : List (κ × α)) (k : κ)
    (w v : α) (f : α → α) (h : k ∉ akeys m) :
    aupdOr (m ++ [(k, w)]) k v f = m ++ [(k, f w)] := by
  induction m with
  | nil => simp [aupdOr]
  | cons q rest ih =>
    obtain ⟨k1, u⟩ := q
    have h1 : ¬ k = k1 := by
      intro he; exact h (by simp [akeys, he])
    have h2 : k ∉ akeys rest := by
      intro hm
      refine h ?_
      simp only [akeys, List.map_cons, List.mem_cons]
      exact Or.inr (by simpa [akeys] using hm)
    simp only [List.cons_append, aupdOr, if_neg h1]
    rw [show rest.append [(k, w)] = rest ++ [(k, w)] from rfl, ih h2]

/-! ### Well-formedness of the built dictionary (C4) -/

/-- Every posting-list mapping in the dictionary has duplicate-free
document keys and non-empty posting lists. -/
def dictWf (d : Dict) : Prop :=
  ∀ e ∈ d, (akeys e.2).Nodup ∧ ∀ dp ∈ e.2, dp.2 ≠ []

theorem innerWf_aupd (plist : List (Nat × List Posting)) (docId : Nat) (pst : Posting)
    (hnd : (akeys plist).Nodup) (hne : ∀ dp ∈ plist, dp.2 ≠ []) :
    (akeys (aupd plist docId [] (fun ps => ps ++ [pst]))).Nodup ∧
      ∀ dp ∈ aupd plist docId [] (fun ps => ps ++ [pst]), dp.2 ≠ [] := by
  refine ⟨aupd_keys_nodup plist docId [] _ hnd, ?_⟩
  intro dp hdp
  rcases mem_aupd plist docId [] _ dp hdp with h | h | h
  · exact hne dp h
  · rcases h with ⟨w, hw1, _⟩
    subst hw1
    simp
  · subst h
    simp

theorem dictWf_addToken (d : Dict) (docId : Nat) (token : List Char) (ln : Option Nat)
    (pos len : Nat) (h : dictWf d) : dictWf (addToken d docId token ln pos len) := by
  intro e he
  rcases mem_aupd d token [] _ e he with h1 | h1 | h1
  · exact h e h1
  · rcases h1 with ⟨w, hw1, hw2⟩
    subst hw1
    exact innerWf_aupd w docId _ (h (token, w) hw2).1 (h (token, w) hw2).2
  · subst h1
    exact innerWf_aupd [] docId _ (by simp [akeys]) (by simp)

theorem dictWf_buildIndex (ss : List Sonnet) : dictWf (buildIndex ss).dictionary := by
  show dictWf (ss.foldl _ [])
  refine foldl_inv_mem dictWf _ ss ?_ [] (by intro e he; simp at he)
  intro d s _ hd
  refine foldl_inv_mem dictWf _ _ ?_ _ ?_
  · intro d2 le _ hd2
    refine foldl_inv_mem dictWf _ _ ?_ _ hd2
    intro d3 tp _ hd3
    exact dictWf_addToken d3 s.id (stem tp.1) (some (le.1 + 1)) tp.2 tp.1.length hd3
  · refine foldl_inv_mem dictWf _ _ ?_ _ hd
    intro d2 tp _ hd2
    exact dictWf_addToken d2 s.id (stem tp.1) none tp.2 tp.1.length hd2

/-! ### A closed form for `Index.search_for` (C4) -/

/-- One iteration of the posting loop of `search_for`: insert the
minimal one-occurrence result, or combine it into the document's
accumulated result. -/
def postingStep (idx : Index) (docId : Nat) (results : List (Nat × SearchResult))
    (p : Posting) : List (Nat × SearchResult) :=
  aupdOr results docId (minimalResult idx docId p)
    (fun r0 => combine_with r0 (minimalResult idx docId p))

/-- The accumulated result of one document's posting list: the first
posting's minimal result combined, in encounter order, with the
remaining postings' minimal results.  (The `[]` case is never reached:
posting lists in the built dictionary are non-empty.) -/
def docCombine (idx : Index) (docId : Nat) : List Posting → SearchResult
  | [] => ⟨[], [], [], 0⟩
  | p :: rest =>
    rest.foldl (fun r q => combine_with r (minimalResult idx docId q))
      (minimalResult idx docId p)

theorem search_for_as_fold (idx : Index) (token : List Char) :
    search_for idx token =
      match alookup idx.dictionary (stem token) with
      | none => []
      | some plist =>
        plist.foldl (fun results dp => dp.2.foldl (postingStep idx dp.1) results) [] := rfl

theorem postingStep_fold_append (idx : Index) (docId : Nat) (ps : List Posting) :
    ∀ (m : List (Nat × SearchResult)) (r0 : SearchResult), docId ∉ akeys m →
      ps.foldl (postingStep idx docId) (m ++ [(docId, r0)]) =
        m ++ [(docId, ps.foldl (fun r q => combine_with r (minimalResult idx docId q)) r0)] := by
  induction ps with
  | nil => intro m r0 _; simp
  | cons p rest ih =>
    intro m r0 h
    simp only [List.foldl_cons]
    rw [show postingStep idx docId (m ++ [(docId, r0)]) p =
        m ++ [(docId, combine_with r0 (minimalResult idx docId p))] from
      aupdOr_append_last m docId r0 _ _ h]
    exact ih m _ h

theorem postingStep_fold_fresh (idx : Index) (docId : Nat) (ps : List Posting)
    (m : List (Nat × SearchResult)) (h : docId ∉ akeys m) (hne : ps ≠ []) :
    ps.foldl (postingStep idx docId) m = m ++ [(docId, docCombine idx docId ps)] := by
  cases ps with
  | nil => exact absurd rfl hne
  | cons p rest =>
    simp only [List.foldl_cons]
    rw [show postingStep idx docId m p = m ++ [(docId, minimalResult idx docId p)] from
      aupdOr_of_not_mem m docId _ _ h]
    exact postingStep_fold_append idx docId rest m _ h

theorem outer_posting_fold (idx : Index) (plist : List (Nat × List Posting)) :
    ∀ m : List (Nat × SearchResult), (akeys plist).Nodup → (∀ dp ∈ plist, dp.2 ≠ []) →
      (∀ k ∈ akeys plist, k ∉ akeys m) →
      plist.foldl (fun results dp => dp.2.foldl (postingStep idx dp.1) results) m =
        m ++ plist.map (fun dp => (dp.1, docCombine idx dp.1 dp.2)) := by
  induction plist with
  | nil => intro m _ _ _; simp
  | cons dp rest ih =>
    intro m hnd hne hdisj
    have hcons : akeys (dp :: rest) = dp.1 :: akeys rest := by simp [akeys]
    rw [hcons, List.nodup_cons] at hnd
    obtain ⟨hnotin, htail⟩ := hnd
    simp only [List.foldl_cons]
    rw [postingStep_fold_fresh idx dp.1 dp.2 m (hdisj dp.1 (by simp [akeys]))
      (hne dp (List.mem_cons_self dp rest))]
    rw [ih (m ++ [(dp.1, docCombine idx dp.1 dp.2)]) htail
      (fun q hq => hne q (List.mem_cons_of_mem dp hq)) ?_]
    · simp
    · intro k hk
      simp only [akeys, List.map_append, List.mem_append, List.map_cons, List.map_nil,
        List.mem_singleton]
      rintro (hin | hin)
      · refine hdisj k ?_ hin
        rw [hcons]
        exact List.mem_cons_of_mem dp.1 hk
      · subst hin
        exact hnotin hk

theorem search_for_closed (idx : Index) (token : List Char)
    (plist : List (Nat × List Posting))
    (hpl : alookup idx.dictionary (stem token) = some plist)
    (hnd : (akeys plist).Nodup) (hne : ∀ dp ∈ plist, dp.2 ≠ []) :
    search_for idx token = plist.map (fun dp => (dp.1, docCombine idx dp.1 dp.2)) := by
  rw [search_for_as_fold, hpl]
  simpa using outer_posting_fold idx plist [] hnd hne (by intro k _; simp [akeys])

theorem alookup_map_entry {α β : Type} (l : List (Nat × α)) (g : Nat → α → β) (k : Nat) :
    alookup (l.map (fun dp => (dp.1, g dp.1 dp.2))) k = (alookup l k).map (g k) := by
  induction l with
  | nil => simp [alookup]
  | cons p rest ih =>
    obtain ⟨k1, v⟩ := p
    by_cases h : k = k1
    · subst h; simp [alookup]
    · simp [alookup, h, ih]

/-! ### Per-line spans of a combination (C4) -/

theorem find?_lineNo_none_iff (lms : List LineMatch) (n : Nat) :
    lms.find? (fun x => decide (x.line_no = n)) = none ↔ n ∉ lineNos lms := by
  rw [List.find?_eq_none]
  constructor
  · intro h hmem
    rcases List.mem_map.mp hmem with ⟨lm, hlm, he⟩
    exact h lm hlm (by simp [he])
  · intro h lm hlm
    simp only [decide_eq_true_eq]
    intro he
    exact h (List.mem_map.mpr ⟨lm, hlm, he⟩)

theorem find?_of_mem_nodup (lms : List LineMatch) (n : Nat) :
    (lineNos lms).Nodup → ∀ lm, lm ∈ lms → lm.line_no = n →
      lms.find? (fun x => decide (x.line_no = n)) = some lm := by
  induction lms with
  | nil => intro _ lm h; simp at h
  | cons x rest ih =>
    intro hnd lm hlm hn
    have hcons : lineNos (x :: rest) = x.line_no :: lineNos rest := by simp [lineNos]
    rw [hcons, List.nodup_cons] at hnd
    obtain ⟨hnotin, htail⟩ := hnd
    by_cases hx : x.line_no = n
    · have hlmx : lm = x := by
        rcases List.mem_cons.mp hlm with h | h
        · exact h
        · exfalso
          refine hnotin ?_
          rw [hx, ← hn]
          exact List.mem_map.mpr ⟨lm, h, rfl⟩
      subst hlmx
      simp [List.find?, hx]
    · have hlmr : lm ∈ rest := by
        rcases List.mem_cons.mp hlm with h | h
        · exact absurd (h ▸ hn) hx
        · exact h
      have hdec : (decide (x.line_no = n)) = false := by
        simp only [decide_eq_false_iff_not]; exact hx
      simp only [List.find?, hdec]
      exact ih htail lm hlmr hn

theorem spansAt_char (lms : List LineMatch) (n : Nat) (hnd : (lineNos lms).Nodup) :
    spansAt lms n =
      match lms.find? (fun x => decide (x.line_no = n)) with
      | some lm => lm.spans
      | none => [] := by
  cases hf : lms.find? (fun x => decide (x.line_no = n)) with
  | none => simpa using spansAt_eq_nil_of_find_none lms n hf
  | some lm => simpa using spansAt_eq_of_find lms n hnd lm hf

/-- Membership of a line number in a combination (helper form of the
C5 membership clause, for reuse). -/
theorem combine_mem_lineNos (a b : SearchResult)
    (ha : (lineNos a.line_matches).Nodup) (hb : (lineNos b.line_matches).Nodup) (n : Nat) :
    n ∈ lineNos (combine_with a b).line_matches ↔
      n ∈ lineNos a.line_matches ∨ n ∈ lineNos b.line_matches := by
  have hpermNos : (lineNos (combine_with a b).line_matches).Perm
      (akeys (mergedLines a.line_matches b.line_matches)) := by
    rw [combine_with_line_matches, lineNos,
      ← mergedLines_snd_lineNos a.line_matches b.line_matches ha]
    exact ((isortLe_perm lmLe _).map LineMatch.line_no)
  rw [hpermNos.mem_iff]
  exact mergedLines_mem_keys a.line_matches b.line_matches ha hb n

/-- The spans of every line entry of a combination (helper form of the
C5 spans clause, for reuse). -/
theorem combine_lm_spans (a b : SearchResult)
    (ha : (lineNos a.line_matches).Nodup) (hb : (lineNos b.line_matches).Nodup) :
    ∀ lm ∈ (combine_with a b).line_matches,
      lm.spans = spansAt a.line_matches lm.line_no ++ spansAt b.line_matches lm.line_no := by
  intro lm hlm
  have hperm : ((combine_with a b).line_matches).Perm
      ((mergedLines a.line_matches b.line_matches).map Prod.snd) := by
    rw [combine_with_line_matches]; exact isortLe_perm lmLe _
  have hlm2 : lm ∈ (mergedLines a.line_matches b.line_matches).map Prod.snd :=
    hperm.mem_iff.mp hlm
  rcases List.mem_map.mp hlm2 with ⟨p, hp, he⟩
  have hfacts := mergedLines_entry a.line_matches b.line_matches ha hb p hp
  rw [← he, hfacts.1]
  exact hfacts.2

/-- Per-line spans of a combination: concatenation of the two sides'
per-line spans. -/
theorem combine_spansAt (a b : SearchResult)
    (ha : (lineNos a.line_matches).Nodup) (hb : (lineNos b.line_matches).Nodup) (n : Nat) :
    spansAt (combine_with a b).line_matches n =
      spansAt a.line_matches n ++ spansAt b.line_matches n := by
  have hcnd : (lineNos (combine_with a b).line_matches).Nodup :=
    combine_lineNos_nodup a b ha
  cases hf : (combine_with a b).line_matches.find? (fun x => decide (x.line_no = n)) with
  | some lm =>
    have hmem := List.mem_of_find?_eq_some hf
    have hpred := List.find?_some hf
    simp only [decide_eq_true_eq] at hpred
    have h1 := spansAt_eq_of_find _ n hcnd lm hf
    rw [h1, combine_lm_spans a b ha hb lm hmem, hpred]
  | none =>
    have hnot : n ∉ lineNos (combine_with a b).line_matches :=
      (find?_lineNo_none_iff _ n).mp hf
    rw [combine_mem_lineNos a b ha hb n] at hnot
    push_neg at hnot
    rw [spansAt_eq_nil_of_find_none _ n hf,
      spansAt_eq_nil_of_find_none _ n ((find?_lineNo_none_iff _ n).mpr hnot.1),
      spansAt_eq_nil_of_find_none _ n ((find?_lineNo_none_iff _ n).mpr hnot.2)]
    rfl

/-! ### The spans contributed by postings (C4) -/

/-- The span recovered from a posting: `[offset, offset + surface_length)`. -/
def postingSpan (p : Posting) : Span := (p.position, p.position + p.token_length)

/-- The title spans contributed by a posting list, in encounter order. -/
def titleSpansOfPostings (ps : List Posting) : List Span :=
  (ps.filter (fun p => p.line_no.isNone)).map postingSpan

/-- The spans contributed to line `n` by a posting list, in encounter
order. -/
def linePostingsAt (ps : List Posting) (n : Nat) : List Span :=
  (ps.filter (fun p => decide (p.line_no = some n))).map postingSpan

/-- The `(line, span)` pairs contributed by a posting list. -/
def linePairsOfPostings (ps : List Posting) : List (Nat × Span) :=
  ps.filterMap (fun p => p.line_no.map (fun ln => (ln, postingSpan p)))

theorem minimal_matchCount (idx : Index) (docId : Nat) (p : Posting) :
    (minimalResult idx docId p).matchCount = 1 := by
  cases h : p.line_no <;> simp [minimalResult, h]

theorem minimal_title_spans (idx : Index) (docId : Nat) (p : Posting) :
    (minimalResult idx docId p).title_spans = titleSpansOfPostings [p] := by
  cases h : p.line_no <;>
    simp [minimalResult, h, titleSpansOfPostings, postingSpan, List.filter]

theorem minimal_lineNos_nodup (idx : Index) (docId : Nat) (p : Posting) :
    (lineNos (minimalResult idx docId p).line_matches).Nodup := by
  cases h : p.line_no <;> simp [minimalResult, h, lineNos]

theorem minimal_spansAt (idx : Index) (docId : Nat) (p : Posting) (n : Nat) :
    spansAt (minimalResult idx docId p).line_matches n = linePostingsAt [p] n := by
  cases h : p.line_no with
  | none => simp [minimalResult, h, spansAt, linePostingsAt, List.filter]
  | some ln =>
    by_cases hn : ln = n
    · subst hn
      simp [minimalResult, h, spansAt, linePostingsAt, List.filter, postingSpan]
    · have hd1 : (decide (ln = n)) = false := by
        simp only [decide_eq_false_iff_not]; exact hn
      have hd2 : (decide (p.line_no = some n)) = false := by
        simp only [decide_eq_false_iff_not, h]
        exact fun hc => hn (by injection hc)
      simp [minimalResult, h, spansAt, linePostingsAt, List.filter, hd1, hd2]

theorem minimal_linePairs (idx : Index) (docId : Nat) (p : Posting) :
    linePairs (minimalResult idx docId p).line_matches = linePairsOfPostings [p] := by
  cases h : p.line_no <;>
    simp [minimalResult, h, linePairs, linePairsOfPostings, List.filterMap, postingSpan]

theorem titleSpansOfPostings_append (ps qs : List Posting) :
    titleSpansOfPostings (ps ++ qs) = titleSpansOfPostings ps ++ titleSpansOfPostings qs := by
  simp [titleSpansOfPostings, List.filter_append]

theorem linePostingsAt_append (ps qs : List Posting) (n : Nat) :
    linePostingsAt (ps ++ qs) n = linePostingsAt ps n ++ linePostingsAt qs n := by
  simp [linePostingsAt, List.filter_append]

theorem linePairsOfPostings_append (ps qs : List Posting) :
    linePairsOfPostings (ps ++ qs) = linePairsOfPostings ps ++ linePairsOfPostings qs := by
  simp [linePairsOfPostings, List.filterMap_append]

/-- The invariant carried through the per-document posting fold of
`search_for`. -/
def docAcc (acc : SearchResult) (processed : List Posting) : Prop :=
  acc.matchCount = processed.length ∧
  acc.title_spans.Perm (titleSpansOfPostings processed) ∧
  (lineNos acc.line_matches).Nodup ∧
  (∀ n, spansAt acc.line_matches n = linePostingsAt processed n) ∧
  (linePairs acc.line_matches).Perm (linePairsOfPostings processed)

theorem docAcc_combine (idx : Index) (docId : Nat) (acc : SearchResult)
    (processed : List Posting) (q : Posting) (h : docAcc acc processed) :
    docAcc (combine_with acc (minimalResult idx docId q)) (processed ++ [q]) := by
  obtain ⟨hmc, hts, hnd, hsp, hlp⟩ := h
  refine ⟨?_, ?_, ?_, ?_, ?_⟩
  · show acc.matchCount + (minimalResult idx docId q).matchCount = _
    rw [hmc, minimal_matchCount idx docId q]
    simp
  · refine (title_spans_combine acc _).trans ?_
    rw [titleSpansOfPostings_append, minimal_title_spans idx docId q]
    exact hts.append_right _
  · exact combine_lineNos_nodup acc _ hnd
  · intro n
    rw [combine_spansAt acc _ hnd (minimal_lineNos_nodup idx docId q) n,
      linePostingsAt_append, hsp n, minimal_spansAt idx docId q n]
  · refine (linePairs_combine acc _ hnd).trans ?_
    rw [linePairsOfPostings_append, minimal_linePairs idx docId q]
    exact hlp.append_right _

theorem docFold_props (idx : Index) (docId : Nat) (rest : List Posting) :
    ∀ (acc : SearchResult) (processed : List Posting), docAcc acc processed →
      docAcc (rest.foldl (fun r q => combine_with r (minimalResult idx docId q)) acc)
        (processed ++ rest) := by
  induction rest with
  | nil => intro acc processed h; simpa using h
  | cons q rest2 ih =>
    intro acc processed h
    simp only [List.foldl_cons]
    have h2 := ih (combine_with acc (minimalResult idx docId q)) (processed ++ [q])
      (docAcc_combine idx docId acc processed q h)
    simpa [List.append_assoc] using h2

theorem docCombine_props (idx : Index) (docId : Nat) (ps : List Posting) (hne : ps ≠ []) :
    docAcc (docCombine idx docId ps) ps := by
  cases ps with
  | nil => exact absurd rfl hne
  | cons p rest =>
    have hmin : docAcc (minimalResult idx docId p) [p] :=
      ⟨minimal_matchCount idx docId p, by rw [minimal_title_spans idx docId p],
        minimal_lineNos_nodup idx docId p, minimal_spansAt idx docId p,
        by rw [minimal_linePairs idx docId p]⟩
    have h := docFold_props idx docId rest (minimalResult idx docId p) [p] hmin
    simpa [docCombine] using h

/-- **C4.** Over any built index: a token whose stem is not a dictionary
key yields the empty mapping; otherwise the result's keys are exactly
the documents with at least one posting for the stem (posting lists are
never empty), and each document's result counts one match per posting,
with each posting contributing exactly the span
`[offset, offset + surface_length)` to the title span list or to its
line's span list, per-line spans in posting encounter order. -/
theorem c4_search_for (ss : List Sonnet) (token : List Char) :
    (alookup (buildIndex ss).dictionary (stem token) = none →
      search_for (buildIndex ss) token = []) ∧
    (∀ plist, alookup (buildIndex ss).dictionary (stem token) = some plist →
      akeys (search_for (buildIndex ss) token) = akeys plist ∧
      (∀ dp ∈ plist, dp.2 ≠ []) ∧
      (∀ docId ps, alookup plist docId = some ps →
        ∃ r, alookup (search_for (buildIndex ss) token) docId = some r ∧
          r.matchCount = ps.length ∧
          r.title_spans.Perm (titleSpansOfPostings ps) ∧
          (∀ n, spansAt r.line_matches n = linePostingsAt ps n) ∧
          (linePairs r.line_matches).Perm (linePairsOfPostings ps))) := by
  constructor
  · intro h
    rw [search_for_as_fold, h]
  · intro plist hpl
    have hwf := dictWf_buildIndex ss (stem token, plist)
      (mem_of_alookup_eq_some _ _ _ hpl)
    have hclosed := search_for_closed (buildIndex ss) token plist hpl hwf.1 hwf.2
    refine ⟨?_, hwf.2, ?_⟩
    · rw [hclosed]
      simp [akeys, List.map_map, Function.comp]
    · intro docId ps hps
      have hne : ps ≠ [] := hwf.2 (docId, ps) (mem_of_alookup_eq_some _ _ _ hps)
      refine ⟨docCombine (buildIndex ss) docId ps, ?_, ?_⟩
      · rw [hclosed, alookup_map_entry plist (fun k v => docCombine (buildIndex ss) k v) docId,
          hps]
        rfl
      · have h := docCombine_props (buildIndex ss) docId ps hne
        exact ⟨h.1, h.2.1, h.2.2.2.1, h.2.2.2.2⟩

/-- **C4, witness.** The characterization applied on the scenario
corpus at the token `increase` and document 1. -/
theorem c4_search_for_witness :
    ∃ r, alookup (search_for (buildIndex [sonnet1, sonnet2]) (strToL "increase")) 1 = some r ∧
      r.matchCount = [(⟨some 1, 33, 8⟩ : Posting)].length ∧
      r.title_spans.Perm (titleSpansOfPostings [⟨some 1, 33, 8⟩]) ∧
      (∀ n, spansAt r.line_matches n = linePostingsAt [⟨some 1, 33, 8⟩] n) ∧
      (linePairs r.line_matches).Perm (linePairsOfPostings [⟨some 1, 33, 8⟩]) :=
  ((c4_search_for [sonnet1, sonnet2] (strToL "increase")).2
    [(1, [⟨some 1, 33, 8⟩]), (2, [⟨some 1, 34, 8⟩])] (by decide)).2.2
    1 [⟨some 1, 33, 8⟩] (by decide)

/-! ### A heap model of `combine_with` (C10)

Python objects are mutable: `combine_with` could in principle mutate its
receiver or argument through aliased `LineMatch` objects.  To state that
it does not, `SearchResult` and `LineMatch` objects are placed in an
explicit heap of numbered cells; attribute assignment is a cell write,
`.copy()` is a fresh allocation.  `combine_with` is then re-embedded
statement by statement over this heap. -/

/-- A `SearchResult` object whose `line_matches` are references to
`LineMatch` cells. -/
structure SRObj where
  title : List Char
  title_spans : List Span
  line_refs : List Nat
  matchCount : Nat
deriving DecidableEq, Repr

/-- The object heap: `LineMatch` cells, `SearchResult` cells, and the
next fresh address. -/
structure Heap where
  lms : List (Nat × LineMatch)
  srs : List (Nat × SRObj)
  next : Nat
deriving Repr

/-- Read a `LineMatch` cell (a dangling read returns a default value;
the programs verified here never perform one). -/
def readLM (h : Heap) (r : Nat) : LineMatch := (alookup h.lms r).getD ⟨0, [], []⟩

/-- Read a `SearchResult` cell. -/
def readSR (h : Heap) (r : Nat) : SRObj := (alookup h.srs r).getD ⟨[], [], [], 0⟩

/-- Overwrite a `LineMatch` cell (attribute assignment). -/
def writeLM (h : Heap) (r : Nat) (o : LineMatch) : Heap := { h with lms := aset h.lms r o }

/-- Overwrite a `SearchResult` cell (attribute assignment). -/
def writeSR (h : Heap) (r : Nat) (o : SRObj) : Heap := { h with srs := aset h.srs r o }

/-- Allocate a fresh `LineMatch` cell. -/
def allocLM (h : Heap) (o : LineMatch) : Heap × Nat :=
  ({ h with lms := h.lms ++ [(h.next, o)], next := h.next + 1 }, h.next)

/-- Allocate a fresh `SearchResult` cell. -/
def allocSR (h : Heap) (o : SRObj) : Heap × Nat :=
  ({ h with srs := h.srs ++ [(h.next, o)], next := h.next + 1 }, h.next)

/-- `LineMatch.copy`: a fresh cell holding the same data (the spans list
is copied by value in this model, as `list(self.spans)` does). -/
def lmCopyH (h : Heap) (r : Nat) : Heap × Nat := allocLM h (readLM h r)

/-- One step of the copy loop in `SearchResult.copy`: copy one
`LineMatch` cell and record the new reference. -/
def srCopyStep (acc : Heap × List Nat) (lr : Nat) : Heap × List Nat :=
  let h2r := lmCopyH acc.1 lr
  (h2r.1, acc.2 ++ [h2r.2])

/-- `SearchResult.copy`: copy every referenced `LineMatch`, then
allocate a new `SearchResult` cell pointing at the copies. -/
def srCopyH (h : Heap) (r : Nat) : Heap × Nat :=
  let sr := readSR h r
  let hrefs := sr.line_refs.foldl srCopyStep (h, [])
  allocSR hrefs.1 { sr with line_refs := hrefs.2 }

/-- The dict-comprehension loop of `combine_with` over the heap:
`lines_by_no = {lm.line_no: lm.copy() for lm in self.line_matches}`. -/
def linesByNoH (acc : Heap × List (Nat × Nat)) (lr : Nat) : Heap × List (Nat × Nat) :=
  let h3r := lmCopyH acc.1 lr
  (h3r.1, aset acc.2 (readLM acc.1 lr).line_no h3r.2)

/-- The `for lm in other.line_matches` loop of `combine_with` over the
heap: extend the kept cell's spans in place, or insert a copy. -/
def lineStepH (acc : Heap × List (Nat × Nat)) (lr : Nat) : Heap × List (Nat × Nat) :=
  let lm := readLM acc.1 lr
  match alookup acc.2 lm.line_no with
  | some r0 =>
    (writeLM acc.1 r0 { readLM acc.1 r0 with spans := (readLM acc.1 r0).spans ++ lm.spans },
     acc.2)
  | none =>
    let h4r := lmCopyH acc.1 lr
    (h4r.1, aset acc.2 lm.line_no h4r.2)

/-- `combined = self.copy()` followed by the two attribute assignments
`combined.matches = ...` and `combined.title_spans = ...`. -/
def combineStage1 (h : Heap) (aR bR : Nat) : Heap × Nat :=
  let hc := srCopyH h aR
  (writeSR hc.1 hc.2 { readSR hc.1 hc.2 with
      matchCount := (readSR h aR).matchCount + (readSR h bR).matchCount
      title_spans := isortLe spanLe ((readSR h aR).title_spans ++ (readSR h bR).title_spans) },
    hc.2)

/-- `SearchResult.combine_with` over the heap, statement by statement:
copy the receiver and overwrite the count and title spans of the copy,
build the per-line dictionary from copies of the lines of the receiver,
merge the lines of the argument into it, store the sorted values. -/
def combineWithH (h : Heap) (aR bR : Nat) : Heap × Nat :=
  let s1 := combineStage1 h aR bR
  let hm := (readSR h aR).line_refs.foldl linesByNoH (s1.1, [])
  let hm2 := (readSR h bR).line_refs.foldl lineStepH hm
  let refs := isortLe
    (fun r1 r2 => decide ((readLM hm2.1 r1).line_no ≤ (readLM hm2.1 r2).line_no))
    (hm2.2.map Prod.snd)
  (writeSR hm2.1 s1.2 { readSR hm2.1 s1.2 with line_refs := refs }, s1.2)

/-- `h` extends `h0`: only fresh cells were allocated or written, so
every cell of `h0` reads the same. -/
def HeapExt (h0 h : Heap) : Prop :=
  h0.next ≤ h.next ∧ ∀ r, r < h0.next → readLM h r = readLM h0 r ∧ readSR h r = readSR h0 r

theorem heapExt_refl (h : Heap) : HeapExt h h := ⟨Nat.le_refl _, fun _ _ => ⟨rfl, rfl⟩⟩

theorem heapExt_trans {h0 h1 h2 : Heap} (e1 : HeapExt h0 h1) (e2 : HeapExt h1 h2) :
    HeapExt h0 h2 := by
  refine ⟨Nat.le_trans e1.1 e2.1, ?_⟩
  intro r hr
  have h1r := e1.2 r hr
  have h2r := e2.2 r (Nat.lt_of_lt_of_le hr e1.1)
  exact ⟨h2r.1.trans h1r.1, h2r.2.trans h1r.2⟩

theorem alookup_append {κ α : Type} [DecidableEq κ] (m1 m2 : List (κ × α)) (k : κ) :
    alookup (m1 ++ m2) k =
      match alookup m1 k with
      | some v => some v
      | none => alookup m2 k := by
  induction m1 with
  | nil => simp [alookup]
  | cons p rest ih =>
    obtain ⟨k1, v1⟩ := p
    by_cases h : k = k1
    · subst h; simp [alookup]
    · simp [alookup, h, ih]

theorem aset_lookup_ne {κ α : Type} [DecidableEq κ] (m : List (κ × α)) (k k0 : κ) (v : α)
    (h : k0 ≠ k) : alookup (aset m k v) k0 = alookup m k0 := by
  induction m with
  | nil => simp [aset, aupd, alookup, h]
  | cons p rest ih =>
    obtain ⟨k1, w⟩ := p
    by_cases hk : k = k1
    · subst hk
      simp [aset, aupd, alookup, h]
    · by_cases h0 : k0 = k1
      · subst h0
        simp [aset, aupd, alookup, hk]
      · simp only [aset, aupd, if_neg hk, alookup, if_neg h0]
        simpa [aset] using ih

theorem heapExt_allocLM (h : Heap) (o : LineMatch) : HeapExt h (allocLM h o).1 := by
  refine ⟨Nat.le_succ _, ?_⟩
  intro r hr
  constructor
  · rw [readLM, readLM]
    show (alookup (h.lms ++ [(h.next, o)]) r).getD _ = _
    rw [alookup_append]
    cases hl : alookup h.lms r with
    | some v => rfl
    | none =>
      have : ¬ r = h.next := Nat.ne_of_lt hr
      simp [alookup, this]
  · rfl

theorem heapExt_allocSR (h : Heap) (o : SRObj) : HeapExt h (allocSR h o).1 := by
  refine ⟨Nat.le_succ _, ?_⟩
  intro r hr
  constructor
  · rfl
  · rw [readSR, readSR]
    show (alookup (h.srs ++ [(h.next, o)]) r).getD _ = _
    rw [alookup_append]
    cases hl : alookup h.srs r with
    | some v => rfl
    | none =>
      have : ¬ r = h.next := Nat.ne_of_lt hr
      simp [alookup, this]

theorem heapExt_writeLM (h0 h : Heap) (e : HeapExt h0 h) (wr : Nat) (hwr : h0.next ≤ wr)
    (o : LineMatch) : HeapExt h0 (writeLM h wr o) := by
  refine ⟨e.1, ?_⟩
  intro r hr
  have hne : r ≠ wr := Nat.ne_of_lt (Nat.lt_of_lt_of_le hr hwr)
  constructor
  · rw [readLM, writeLM]
    show (alookup (aset h.lms wr o) r).getD _ = _
    rw [aset_lookup_ne h.lms wr r o hne]
    exact (e.2 r hr).1
  · exact (e.2 r hr).2

theorem heapExt_writeSR (h0 h : Heap) (e : HeapExt h0 h) (wr : Nat) (hwr : h0.next ≤ wr)
    (o : SRObj) : HeapExt h0 (writeSR h wr o) := by
  refine ⟨e.1, ?_⟩
  intro r hr
  have hne : r ≠ wr := Nat.ne_of_lt (Nat.lt_of_lt_of_le hr hwr)
  constructor
  · exact (e.2 r hr).1
  · rw [readSR, writeSR]
    show (alookup (aset h.srs wr o) r).getD _ = _
    rw [aset_lookup_ne h.srs wr r o hne]
    exact (e.2 r hr).2

theorem writeLM_next (h : Heap) (r : Nat) (o : LineMatch) : (writeLM h r o).next = h.next := rfl

theorem heapExt_srCopyFold (h : Heap) (lrs : List Nat) (acc : Heap × List Nat)
    (hacc : HeapExt h acc.1) : HeapExt h (lrs.foldl srCopyStep acc).1 := by
  induction lrs generalizing acc with
  | nil => exact hacc
  | cons lr rest ih =>
    exact ih _ (heapExt_trans hacc (heapExt_allocLM acc.1 (readLM acc.1 lr)))

theorem heapExt_srCopyH (h : Heap) (r : Nat) : HeapExt h (srCopyH h r).1 := by
  rw [srCopyH]
  exact heapExt_trans (heapExt_srCopyFold h _ (h, []) (heapExt_refl h)) (heapExt_allocSR _ _)

theorem srCopyH_ref_ge (h : Heap) (r : Nat) : h.next ≤ (srCopyH h r).2 :=
  (heapExt_srCopyFold h (readSR h r).line_refs (h, []) (heapExt_refl h)).1

theorem heapExt_combineStage1 (h : Heap) (aR bR : Nat) :
    HeapExt h (combineStage1 h aR bR).1 :=
  heapExt_writeSR h _ (heapExt_srCopyH h aR) _ (srCopyH_ref_ge h aR) _

theorem combineStage1_ref_ge (h : Heap) (aR bR : Nat) :
    h.next ≤ (combineStage1 h aR bR).2 :=
  srCopyH_ref_ge h aR

theorem mem_aset_val {κ α : Type} [DecidableEq κ] (m : List (κ × α)) (k : κ) (v : α)
    (p : κ × α) (hp : p ∈ aset m k v) : p ∈ m ∨ p.2 = v := by
  rcases mem_aupd m k v (fun _ => v) p hp with h | h | h
  · exact Or.inl h
  · rcases h with ⟨w, hw1, _⟩
    subst hw1
    exact Or.inr rfl
  · subst h
    exact Or.inr rfl

/-- The invariant of the two line loops: the heap only extends `h0`, and
every `LineMatch` reference stored in the dictionary under construction
was allocated during the call. -/
def mapFresh (h0 : Heap) (acc : Heap × List (Nat × Nat)) : Prop :=
  HeapExt h0 acc.1 ∧ ∀ q ∈ acc.2, h0.next ≤ q.2

theorem mapFresh_linesByNoH (h0 : Heap) (acc : Heap × List (Nat × Nat)) (lr : Nat)
    (h : mapFresh h0 acc) : mapFresh h0 (linesByNoH acc lr) := by
  obtain ⟨he, hv⟩ := h
  constructor
  · exact heapExt_trans he (heapExt_allocLM acc.1 (readLM acc.1 lr))
  · intro q hq
    rcases mem_aset_val acc.2 _ _ q hq with h1 | h1
    · exact hv q h1
    · rw [h1]
      exact he.1

theorem mapFresh_lineStepH (h0 : Heap) (acc : Heap × List (Nat × Nat)) (lr : Nat)
    (h : mapFresh h0 acc) : mapFresh h0 (lineStepH acc lr) := by
  obtain ⟨he, hv⟩ := h
  rw [lineStepH]
  cases hl : alookup acc.2 (readLM acc.1 lr).line_no with
  | some r0 =>
    refine ⟨?_, hv⟩
    refine heapExt_writeLM h0 acc.1 he r0 ?_ _
    exact hv (_, r0) (mem_of_alookup_eq_some acc.2 _ r0 hl)
  | none =>
    constructor
    · exact heapExt_trans he (heapExt_allocLM acc.1 (readLM acc.1 lr))
    · intro q hq
      rcases mem_aset_val acc.2 _ _ q hq with h1 | h1
      · exact hv q h1
      · rw [h1]
        exact he.1

/-- The whole of `combine_with` only allocates fresh cells and writes to
cells allocated during the call: every pre-existing heap cell is left
exactly as it was. -/
theorem heapExt_combineWithH (h : Heap) (aR bR : Nat) :
    HeapExt h (combineWithH h aR bR).1 := by
  have e2 : mapFresh h ((readSR h aR).line_refs.foldl linesByNoH ((combineStage1 h aR bR).1, [])) :=
    foldl_inv_mem (mapFresh h) linesByNoH (readSR h aR).line_refs
      (fun acc lr _ hacc => mapFresh_linesByNoH h acc lr hacc)
      ((combineStage1 h aR bR).1, [])
      ⟨heapExt_combineStage1 h aR bR, by intro q hq; simp at hq⟩
  have e3 : mapFresh h ((readSR h bR).line_refs.foldl lineStepH
      ((readSR h aR).line_refs.foldl linesByNoH ((combineStage1 h aR bR).1, []))) :=
    foldl_inv_mem (mapFresh h) lineStepH (readSR h bR).line_refs
      (fun acc lr _ hacc => mapFresh_lineStepH h acc lr hacc) _ e2
  exact heapExt_writeSR h _ e3.1 _ (combineStage1_ref_ge h aR bR) _

/-- **C10.** `a.combine_with(b)` mutates neither input: for any heap and
any two `SearchResult` objects whose cells (and referenced `LineMatch`
cells) exist in it, after the call both objects' fields — `matches`,
`title_spans`, `line_matches` references and the `line_no`, `text` and
`spans` of every referenced `LineMatch` — read exactly as before the
call; the combined result is built from copies. -/
theorem c10_combine_with_no_mutation (h : Heap) (aR bR : Nat)
    (haR : aR < h.next) (hbR : bR < h.next)
    (haL : ∀ lr ∈ (readSR h aR).line_refs, lr < h.next)
    (hbL : ∀ lr ∈ (readSR h bR).line_refs, lr < h.next) :
    readSR (combineWithH h aR bR).1 aR = readSR h aR ∧
    readSR (combineWithH h aR bR).1 bR = readSR h bR ∧
    (∀ lr ∈ (readSR h aR).line_refs, readLM (combineWithH h aR bR).1 lr = readLM h lr) ∧
    (∀ lr ∈ (readSR h bR).line_refs, readLM (combineWithH h aR bR).1 lr = readLM h lr) := by
  have e := heapExt_combineWithH h aR bR
  refine ⟨(e.2 aR haR).2, (e.2 bR hbR).2, ?_, ?_⟩
  · intro lr hlr
    exact (e.2 lr (haL lr hlr)).1
  · intro lr hlr
    exact (e.2 lr (hbL lr hlr)).1

/-! ### The heap model projects to the pure `combine_with`

`combineWithH` is a second embedding of the same Python method; the
following correspondence shows the two agree: reading the combined
object (and its line cells) out of the final heap gives exactly the pure
`combine_with` of the two projected inputs. -/

/-- Read a full `SearchResult` value out of the heap. -/
def projSR (h : Heap) (r : Nat) : SearchResult :=
  { title := (readSR h r).title
    title_spans := (readSR h r).title_spans
    line_matches := (readSR h r).line_refs.map (readLM h)
    matchCount := (readSR h r).matchCount }

/-- Every allocated cell's address is below the allocation counter. -/
def wfHeap (h : Heap) : Prop :=
  (∀ p ∈ h.lms, p.1 < h.next) ∧ ∀ p ∈ h.srs, p.1 < h.next

theorem aset_lookup_self {κ α : Type} [DecidableEq κ] (m : List (κ × α)) (k : κ) (v : α) :
    alookup (aset m k v) k = some v := by
  induction m with
  | nil => simp [aset, aupd, alookup]
  | cons p rest ih =>
    obtain ⟨k1, w⟩ := p
    by_cases hk : k = k1
    · subst hk
      simp [aset, aupd, alookup]
    · simp only [aset, aupd, if_neg hk, alookup, if_neg hk]
      simpa [aset] using ih

theorem akeys_aset_sub {κ α : Type} [DecidableEq κ] (m : List (κ × α)) (k : κ) (v : α)
    (k0 : κ) (h : k0 ∈ akeys (aset m k v)) : k0 ∈ akeys m ∨ k0 = k := by
  rw [aset, aupd_keys] at h
  by_cases hmem : k ∈ akeys m
  · rw [if_pos hmem] at h
    exact Or.inl h
  · rw [if_neg hmem] at h
    rcases List.mem_append.mp h with h1 | h1
    · exact Or.inl h1
    · exact Or.inr (List.mem_singleton.mp h1)

theorem wfHeap_allocLM (h : Heap) (o : LineMatch) (hwf : wfHeap h) :
    wfHeap (allocLM h o).1 := by
  constructor
  · intro p hp
    rcases List.mem_append.mp hp with h1 | h1
    · exact Nat.lt_succ_of_lt (hwf.1 p h1)
    · rw [List.mem_singleton] at h1
      subst h1
      exact Nat.lt_succ_self _
  · intro p hp
    exact Nat.lt_succ_of_lt (hwf.2 p hp)

theorem wfHeap_allocSR (h : Heap) (o : SRObj) (hwf : wfHeap h) :
    wfHeap (allocSR h o).1 := by
  constructor
  · intro p hp
    exact Nat.lt_succ_of_lt (hwf.1 p hp)
  · intro p hp
    rcases List.mem_append.mp hp with h1 | h1
    · exact Nat.lt_succ_of_lt (hwf.2 p h1)
    · rw [List.mem_singleton] at h1
      subst h1
      exact Nat.lt_succ_self _

theorem wfHeap_writeLM (h : Heap) (r : Nat) (o : LineMatch) (hr : r < h.next)
    (hwf : wfHeap h) : wfHeap (writeLM h r o) := by
  constructor
  · intro p hp
    have hk : p.1 ∈ akeys (aset h.lms r o) := List.mem_map_of_mem Prod.fst hp
    rcases akeys_aset_sub h.lms r o p.1 hk with h1 | h1
    · rcases List.mem_map.mp h1 with ⟨q, hq, he⟩
      rw [show (writeLM h r o).next = h.next from rfl, ← he]
      exact hwf.1 q hq
    · rw [show (writeLM h r o).next = h.next from rfl, h1]
      exact hr
  · intro p hp
    exact hwf.2 p hp

theorem wfHeap_writeSR (h : Heap) (r : Nat) (o : SRObj) (hr : r < h.next)
    (hwf : wfHeap h) : wfHeap (writeSR h r o) := by
  constructor
  · intro p hp
    exact hwf.1 p hp
  · intro p hp
    have hk : p.1 ∈ akeys (aset h.srs r o) := List.mem_map_of_mem Prod.fst hp
    rcases akeys_aset_sub h.srs r o p.1 hk with h1 | h1
    · rcases List.mem_map.mp h1 with ⟨q, hq, he⟩
      rw [show (writeSR h r o).next = h.next from rfl, ← he]
      exact hwf.2 q hq
    · rw [show (writeSR h r o).next = h.next from rfl, h1]
      exact hr

theorem readLM_allocLM_self (h : Heap) (o : LineMatch) (hwf : wfHeap h) :
    readLM (allocLM h o).1 (allocLM h o).2 = o := by
  rw [readLM]
  show (alookup (h.lms ++ [(h.next, o)]) h.next).getD _ = o
  rw [alookup_append]
  have hnone : alookup h.lms h.next = none := by
    rw [alookup_eq_none_iff]
    intro hmem
    rcases List.mem_map.mp hmem with ⟨q, hq, he⟩
    exact absurd (he ▸ hwf.1 q hq) (Nat.lt_irrefl _)
  rw [hnone]
  simp [alookup]

theorem readSR_allocSR_self (h : Heap) (o : SRObj) (hwf : wfHeap h) :
    readSR (allocSR h o).1 (allocSR h o).2 = o := by
  rw [readSR]
  show (alookup (h.srs ++ [(h.next, o)]) h.next).getD _ = o
  rw [alookup_append]
  have hnone : alookup h.srs h.next = none := by
    rw [alookup_eq_none_iff]
    intro hmem
    rcases List.mem_map.mp hmem with ⟨q, hq, he⟩
    exact absurd (he ▸ hwf.2 q hq) (Nat.lt_irrefl _)
  rw [hnone]
  simp [alookup]

theorem readSR_writeSR_self (h : Heap) (r : Nat) (o : SRObj) :
    readSR (writeSR h r o) r = o := by
  rw [readSR, writeSR]
  show (alookup (aset h.srs r o) r).getD _ = o
  rw [aset_lookup_self]
  rfl

theorem readLM_writeLM_self (h : Heap) (r : Nat) (o : LineMatch) :
    readLM (writeLM h r o) r = o := by
  rw [readLM, writeLM]
  show (alookup (aset h.lms r o) r).getD _ = o
  rw [aset_lookup_self]
  rfl

theorem readLM_writeLM_ne (h : Heap) (r r0 : Nat) (o : LineMatch) (hne : r ≠ r0) :
    readLM (writeLM h r0 o) r = readLM h r := by
  rw [readLM, writeLM]
  show (alookup (aset h.lms r0 o) r).getD _ = _
  rw [aset_lookup_ne h.lms r0 r o hne]
  rfl

theorem map_aset {κ α β : Type} [DecidableEq κ] (m : List (κ × α)) (k : κ) (v : α)
    (f : α → β) :
    (aset m k v).map (fun q => (q.1, f q.2)) = aset (m.map (fun q => (q.1, f q.2))) k (f v) := by
  induction m with
  | nil => simp [aset, aupd]
  | cons p rest ih =>
    obtain ⟨k1, w⟩ := p
    by_cases hk : k = k1
    · subst hk
      simp [aset, aupd]
    · simp only [aset, aupd, if_neg hk, List.map_cons]
      simpa [aset] using ih

theorem insLe_map {α β : Type} (f : α → β) (le : β → β → Bool) (x : α) (l : List α) :
    (insLe (fun a b => le (f a) (f b)) x l).map f = insLe le (f x) (l.map f) := by
  induction l with
  | nil => simp [insLe]
  | cons y ys ih =>
    simp only [insLe, List.map_cons]
    by_cases h : le (f y) (f x) = true
    · simp [h, ih]
    · simp [h]

theorem isortLe_map {α β : Type} (f : α → β) (le : β → β → Bool) (l : List α) :
    (isortLe (fun a b => le (f a) (f b)) l).map f = isortLe le (l.map f) := by
  suffices h : ∀ acc, (l.foldl (fun acc x => insLe (fun a b => le (f a) (f b)) x acc) acc).map f
      = (l.map f).foldl (fun acc x => insLe le x acc) (acc.map f) by
    exact h []
  induction l with
  | nil => intro acc; simp
  | cons x xs ih =>
    intro acc
    simp only [List.foldl_cons, List.map_cons]
    rw [ih (insLe (fun a b => le (f a) (f b)) x acc), insLe_map]

theorem aset_snd_nodup (m : List (Nat × Nat)) (k v : Nat)
    (hnd : (m.map Prod.snd).Nodup) (hfresh : v ∉ m.map Prod.snd) :
    ((aset m k v).map Prod.snd).Nodup := by
  induction m with
  | nil => simp [aset, aupd]
  | cons p rest ih =>
    obtain ⟨k1, w⟩ := p
    simp only [List.map_cons, List.nodup_cons, List.mem_cons] at hnd hfresh
    push_neg at hfresh
    by_cases hk : k = k1
    · subst hk
      have hred : aset ((k, w) :: rest) k v = (k, v) :: rest := by simp [aset, aupd]
      rw [hred]
      simp only [List.map_cons, List.nodup_cons]
      exact ⟨hfresh.2, hnd.2⟩
    · have hred : aset ((k1, w) :: rest) k v = (k1, w) :: aset rest k v := by
        simp [aset, aupd, hk]
      rw [hred]
      simp only [List.map_cons, List.nodup_cons]
      constructor
      · intro hmem
        have : w ∈ rest.map Prod.snd ∨ w = v := by
          rcases List.mem_map.mp hmem with ⟨q, hq, he⟩
          rcases mem_aset_val rest k v q (by simpa [aset] using hq) with h1 | h1
          · exact Or.inl (he ▸ List.mem_map_of_mem Prod.snd h1)
          · exact Or.inr (he ▸ h1 ▸ rfl)
        rcases this with h1 | h1
        · exact hnd.1 h1
        · exact hfresh.1 h1.symm
      · exact ih hnd.2 hfresh.2

/-- The value-level view of the reference dictionary built by the line
loops. -/
def mval (h : Heap) (m : List (Nat × Nat)) : List (Nat × LineMatch) :=
  m.map (fun q => (q.1, readLM h q.2))

theorem mval_writeLM (h : Heap) (m : List (Nat × Nat)) (key r0 : Nat)
    (fv : LineMatch → LineMatch) (v : LineMatch) :
    alookup m key = some r0 → (m.map Prod.snd).Nodup →
    mval (writeLM h r0 (fv (readLM h r0))) m =
      aupdOr (mval h m) key v (fun old => fv old) := by
  induction m with
  | nil => intro hfind _; simp [alookup] at hfind
  | cons p rest ih =>
    intro hfind hnd
    obtain ⟨k1, r1⟩ := p
    simp only [List.map_cons, List.nodup_cons] at hnd
    by_cases hk : key = k1
    · subst hk
      have hr : r1 = r0 := by
        simp only [alookup, if_pos rfl] at hfind
        injection hfind
      subst hr
      simp only [mval, List.map_cons, aupdOr, if_pos rfl]
      rw [readLM_writeLM_self]
      congr 1
      refine List.map_congr_left ?_
      intro q hq
      have hne : q.2 ≠ r1 := by
        intro he
        exact hnd.1 (he ▸ List.mem_map_of_mem Prod.snd hq)
      rw [readLM_writeLM_ne h q.2 r1 _ hne]
    · have hfind2 : alookup rest key = some r0 := by
        simpa [alookup, hk] using hfind
      have hr0mem : r0 ∈ rest.map Prod.snd :=
        List.mem_map_of_mem Prod.snd (mem_of_alookup_eq_some rest key r0 hfind2)
      have hne1 : r1 ≠ r0 := fun he => hnd.1 (he ▸ hr0mem)
      simp only [mval, List.map_cons, aupdOr, if_neg hk]
      rw [readLM_writeLM_ne h r1 r0 _ hne1]
      have := ih hfind2 hnd.2
      simp only [mval] at this
      rw [this]

theorem alookup_mval (h : Heap) (m : List (Nat × Nat)) (k : Nat) :
    alookup (mval h m) k = (alookup m k).map (readLM h) :=
  alookup_map_entry m (fun _ v => readLM h v) k

/-- The invariant of the two line loops relating the reference
dictionary to its value-level counterpart. -/
def LInv (h0 : Heap) (acc : Heap × List (Nat × Nat)) (vm : List (Nat × LineMatch)) : Prop :=
  HeapExt h0 acc.1 ∧ wfHeap acc.1 ∧ mval acc.1 acc.2 = vm ∧
  (∀ q ∈ acc.2, h0.next ≤ q.2 ∧ q.2 < acc.1.next) ∧
  (acc.2.map Prod.snd).Nodup

theorem LInv_linesByNoH (h0 : Heap) (acc : Heap × List (Nat × Nat))
    (vm : List (Nat × LineMatch)) (lr : Nat) (hlr : lr < h0.next)
    (hinv : LInv h0 acc vm) :
    LInv h0 (linesByNoH acc lr) (aset vm (readLM h0 lr).line_no (readLM h0 lr)) := by
  obtain ⟨he, hwf, hmv, hbnd, hnd⟩ := hinv
  have hlmv : readLM acc.1 lr = readLM h0 lr := (he.2 lr hlr).1
  have hred : linesByNoH acc lr =
      ((allocLM acc.1 (readLM acc.1 lr)).1,
        aset acc.2 (readLM acc.1 lr).line_no acc.1.next) := rfl
  rw [hred, hlmv]
  have hext2 := heapExt_allocLM acc.1 (readLM h0 lr)
  refine ⟨heapExt_trans he hext2, wfHeap_allocLM acc.1 _ hwf, ?_, ?_, ?_⟩
  · rw [mval, map_aset]
    have hfresh : readLM (allocLM acc.1 (readLM h0 lr)).1 acc.1.next = readLM h0 lr :=
      readLM_allocLM_self acc.1 _ hwf
    rw [hfresh]
    congr 1
    rw [← hmv, mval]
    refine List.map_congr_left ?_
    intro q hq
    rw [(hext2.2 q.2 (hbnd q hq).2).1]
  · intro q hq
    rcases mem_aset_val acc.2 _ _ q hq with h1 | h1
    · exact ⟨(hbnd q h1).1, Nat.lt_succ_of_lt (hbnd q h1).2⟩
    · rw [h1]
      exact ⟨he.1, Nat.lt_succ_self _⟩
  · refine aset_snd_nodup acc.2 _ _ hnd ?_
    intro hmem
    rcases List.mem_map.mp hmem with ⟨q, hq, he2⟩
    exact absurd (he2 ▸ (hbnd q hq).2) (Nat.lt_irrefl _)

theorem LInv_lineStepH (h0 : Heap) (acc : Heap × List (Nat × Nat))
    (vm : List (Nat × LineMatch)) (lr : Nat) (hlr : lr < h0.next)
    (hinv : LInv h0 acc vm) :
    LInv h0 (lineStepH acc lr) (lineStep vm (readLM h0 lr)) := by
  obtain ⟨he, hwf, hmv, hbnd, hnd⟩ := hinv
  have hlmv : readLM acc.1 lr = readLM h0 lr := (he.2 lr hlr).1
  rw [lineStep]
  cases hl : alookup acc.2 (readLM h0 lr).line_no with
  | some r0 =>
    have hred : lineStepH acc lr =
        (writeLM acc.1 r0 { readLM acc.1 r0 with
            spans := (readLM acc.1 r0).spans ++ (readLM h0 lr).spans }, acc.2) := by
      simp only [lineStepH, hlmv, hl]
    rw [hred]
    have hr0mem : ((readLM h0 lr).line_no, r0) ∈ acc.2 :=
      mem_of_alookup_eq_some acc.2 _ r0 hl
    have hr0 := hbnd _ hr0mem
    refine ⟨?_, ?_, ?_, ?_, hnd⟩
    · exact heapExt_writeLM h0 acc.1 he r0 hr0.1 _
    · exact wfHeap_writeLM acc.1 r0 _ hr0.2 hwf
    · have hm := mval_writeLM acc.1 acc.2 (readLM h0 lr).line_no r0
        (fun old => { old with spans := old.spans ++ (readLM h0 lr).spans })
        (readLM h0 lr) hl hnd
      rw [show (writeLM acc.1 r0 { readLM acc.1 r0 with
          spans := (readLM acc.1 r0).spans ++ (readLM h0 lr).spans }) =
        (writeLM acc.1 r0 ((fun old => { old with
          spans := old.spans ++ (readLM h0 lr).spans }) (readLM acc.1 r0))) from rfl]
      rw [hm, hmv]
    · intro q hq
      have := hbnd q hq
      exact ⟨this.1,
        by rw [show (writeLM acc.1 r0 _).next = acc.1.next from rfl]; exact this.2⟩
  | none =>
    have hred : lineStepH acc lr =
        ((allocLM acc.1 (readLM h0 lr)).1,
          aset acc.2 (readLM h0 lr).line_no acc.1.next) := by
      simp only [lineStepH, lmCopyH, hlmv, hl]
      rfl
    rw [hred]
    have hvnone : alookup vm (readLM h0 lr).line_no = none := by
      rw [← hmv, alookup_mval, hl]
      rfl
    have hnotin : (readLM h0 lr).line_no ∉ akeys vm := (alookup_eq_none_iff vm _).mp hvnone
    rw [aupdOr_of_not_mem vm _ _ _ hnotin]
    have hext2 := heapExt_allocLM acc.1 (readLM h0 lr)
    refine ⟨heapExt_trans he hext2, wfHeap_allocLM acc.1 _ hwf, ?_, ?_, ?_⟩
    · rw [mval, map_aset]
      have hfresh : readLM (allocLM acc.1 (readLM h0 lr)).1 acc.1.next =
          readLM h0 lr := readLM_allocLM_self acc.1 _ hwf
      rw [hfresh]
      have hmapeq : acc.2.map
          (fun q => (q.1, readLM (allocLM acc.1 (readLM h0 lr)).1 q.2)) = vm := by
        rw [← hmv, mval]
        refine List.map_congr_left ?_
        intro q hq
        rw [(hext2.2 q.2 (hbnd q hq).2).1]
      rw [hmapeq]
      exact aset_of_not_mem vm _ _ hnotin
    · intro q hq
      rcases mem_aset_val acc.2 _ _ q hq with h1 | h1
      · exact ⟨(hbnd q h1).1, Nat.lt_succ_of_lt (hbnd q h1).2⟩
      · rw [h1]
        exact ⟨he.1, Nat.lt_succ_self _⟩
    · refine aset_snd_nodup acc.2 _ _ hnd ?_
      intro hmem
      rcases List.mem_map.mp hmem with ⟨q, hq, he2⟩
      exact absurd (he2 ▸ (hbnd q hq).2) (Nat.lt_irrefl _)

theorem LInv_fold1 (h0 : Heap) (lrs : List Nat) :
    (∀ lr ∈ lrs, lr < h0.next) → ∀ acc vm, LInv h0 acc vm →
      LInv h0 (lrs.foldl linesByNoH acc)
        ((lrs.map (readLM h0)).foldl (fun m lm => aset m lm.line_no lm) vm) := by
  induction lrs with
  | nil => intro _ acc vm h; exact h
  | cons lr rest ih =>
    intro hlrs acc vm h
    simp only [List.foldl_cons, List.map_cons]
    exact ih (fun q hq => hlrs q (List.mem_cons_of_mem lr hq)) _ _
      (LInv_linesByNoH h0 acc vm lr (hlrs lr (List.mem_cons_self lr rest)) h)

theorem LInv_fold2 (h0 : Heap) (lrs : List Nat) :
    (∀ lr ∈ lrs, lr < h0.next) → ∀ acc vm, LInv h0 acc vm →
      LInv h0 (lrs.foldl lineStepH acc)
        ((lrs.map (readLM h0)).foldl lineStep vm) := by
  induction lrs with
  | nil => intro _ acc vm h; exact h
  | cons lr rest ih =>
    intro hlrs acc vm h
    simp only [List.foldl_cons, List.map_cons]
    exact ih (fun q hq => hlrs q (List.mem_cons_of_mem lr hq)) _ _
      (LInv_lineStepH h0 acc vm lr (hlrs lr (List.mem_cons_self lr rest)) h)

theorem wfHeap_srCopyFold (lrs : List Nat) :
    ∀ acc : Heap × List Nat, wfHeap acc.1 → wfHeap (lrs.foldl srCopyStep acc).1 := by
  induction lrs with
  | nil => intro acc h; exact h
  | cons lr rest ih =>
    intro acc h
    exact ih _ (wfHeap_allocLM acc.1 _ h)

theorem wfHeap_srCopyH (h : Heap) (r : Nat) (hwf : wfHeap h) : wfHeap (srCopyH h r).1 := by
  rw [srCopyH]
  exact wfHeap_allocSR _ _ (wfHeap_srCopyFold _ (h, []) hwf)

theorem srCopyH_ref_lt (h : Heap) (r : Nat) : (srCopyH h r).2 < (srCopyH h r).1.next := by
  rw [srCopyH]
  exact Nat.lt_succ_self _

theorem srCopyH_read (h : Heap) (r : Nat) (hwf : wfHeap h) :
    readSR (srCopyH h r).1 (srCopyH h r).2 =
      { readSR h r with line_refs := ((readSR h r).line_refs.foldl srCopyStep (h, [])).2 } := by
  rw [srCopyH]
  exact readSR_allocSR_self _ _ (wfHeap_srCopyFold _ (h, []) hwf)

theorem wfHeap_combineStage1 (h : Heap) (aR bR : Nat) (hwf : wfHeap h) :
    wfHeap (combineStage1 h aR bR).1 := by
  rw [combineStage1]
  exact wfHeap_writeSR _ _ _ (srCopyH_ref_lt h aR) (wfHeap_srCopyH h aR hwf)

theorem stage1_read (h : Heap) (aR bR : Nat) (hwf : wfHeap h) :
    readSR (combineStage1 h aR bR).1 (combineStage1 h aR bR).2 =
      { title := (readSR h aR).title
        title_spans := isortLe spanLe ((readSR h aR).title_spans ++ (readSR h bR).title_spans)
        line_refs := ((readSR h aR).line_refs.foldl srCopyStep (h, [])).2
        matchCount := (readSR h aR).matchCount + (readSR h bR).matchCount } := by
  rw [combineStage1]
  rw [readSR_writeSR_self]
  rw [srCopyH_read h aR hwf]

theorem linesByNoH_srs (acc : Heap × List (Nat × Nat)) (lr : Nat) :
    (linesByNoH acc lr).1.srs = acc.1.srs := rfl

theorem lineStepH_srs (acc : Heap × List (Nat × Nat)) (lr : Nat) :
    (lineStepH acc lr).1.srs = acc.1.srs := by
  rw [lineStepH]
  cases alookup acc.2 (readLM acc.1 lr).line_no <;> rfl

theorem fold_linesByNoH_srs (lrs : List Nat) :
    ∀ acc : Heap × List (Nat × Nat), (lrs.foldl linesByNoH acc).1.srs = acc.1.srs := by
  induction lrs with
  | nil => intro acc; rfl
  | cons lr rest ih =>
    intro acc
    rw [List.foldl_cons, ih (linesByNoH acc lr), linesByNoH_srs]

theorem fold_lineStepH_srs (lrs : List Nat) :
    ∀ acc : Heap × List (Nat × Nat), (lrs.foldl lineStepH acc).1.srs = acc.1.srs := by
  induction lrs with
  | nil => intro acc; rfl
  | cons lr rest ih =>
    intro acc
    rw [List.foldl_cons, ih (lineStepH acc lr), lineStepH_srs]

theorem readSR_congr_srs (h1 h2 : Heap) (r : Nat) (h : h1.srs = h2.srs) :
    readSR h1 r = readSR h2 r := by
  rw [readSR, readSR, h]

theorem map_snd_mval (h : Heap) (m : List (Nat × Nat)) :
    (mval h m).map Prod.snd = (m.map Prod.snd).map (readLM h) := by
  rw [mval, List.map_map, List.map_map]
  exact List.map_congr_left (fun q _ => rfl)

/-- The heap embedding agrees with the pure one: reading the combined
object out of the final heap gives exactly `combine_with` of the two
projected inputs. -/
theorem combineWithH_projSR (h : Heap) (aR bR : Nat) (hwf : wfHeap h)
    (haL : ∀ lr ∈ (readSR h aR).line_refs, lr < h.next)
    (hbL : ∀ lr ∈ (readSR h bR).line_refs, lr < h.next) :
    projSR (combineWithH h aR bR).1 (combineWithH h aR bR).2 =
      combine_with (projSR h aR) (projSR h bR) := by
  set s1 := combineStage1 h aR bR with hs1
  set hm := (readSR h aR).line_refs.foldl linesByNoH (s1.1, ([] : List (Nat × Nat))) with hhm
  set hm2 := (readSR h bR).line_refs.foldl lineStepH hm with hhm2
  set refs := isortLe
    (fun r1 r2 => decide ((readLM hm2.1 r1).line_no ≤ (readLM hm2.1 r2).line_no))
    (hm2.2.map Prod.snd) with hrefs
  have hinv0 : LInv h (s1.1, ([] : List (Nat × Nat))) [] :=
    ⟨heapExt_combineStage1 h aR bR, wfHeap_combineStage1 h aR bR hwf, rfl,
      by intro q hq; simp at hq, by simp⟩
  have hinv1 := LInv_fold1 h (readSR h aR).line_refs haL _ _ hinv0
  have hinv2 := LInv_fold2 h (readSR h bR).line_refs hbL _ _ hinv1
  rw [← hhm] at hinv1
  rw [← hhm2] at hinv2
  have hmv2 := hinv2.2.2.1
  have hcw : combineWithH h aR bR =
      (writeSR hm2.1 s1.2 { readSR hm2.1 s1.2 with line_refs := refs }, s1.2) := rfl
  rw [hcw]
  have hread2 : readSR (writeSR hm2.1 s1.2 { readSR hm2.1 s1.2 with line_refs := refs }) s1.2 =
      { readSR hm2.1 s1.2 with line_refs := refs } := readSR_writeSR_self _ _ _
  have hsrs : hm2.1.srs = s1.1.srs := by
    rw [hhm2, fold_lineStepH_srs, hhm, fold_linesByNoH_srs]
  have hreadc : readSR hm2.1 s1.2 = readSR s1.1 s1.2 := readSR_congr_srs _ _ _ hsrs
  have hstage := stage1_read h aR bR hwf
  rw [← hs1] at hstage
  have hLHS : projSR (writeSR hm2.1 s1.2 { readSR hm2.1 s1.2 with line_refs := refs }) s1.2 =
      { title := (readSR h aR).title
        title_spans := isortLe spanLe ((readSR h aR).title_spans ++ (readSR h bR).title_spans)
        line_matches := refs.map (readLM hm2.1)
        matchCount := (readSR h aR).matchCount + (readSR h bR).matchCount } := by
    rw [projSR, hread2, hreadc, hstage]
    rfl
  have hRHS : combine_with (projSR h aR) (projSR h bR) =
      { title := (readSR h aR).title
        title_spans := isortLe spanLe ((readSR h aR).title_spans ++ (readSR h bR).title_spans)
        line_matches := isortLe lmLe ((((readSR h bR).line_refs.map (readLM h)).foldl lineStep
          (((readSR h aR).line_refs.map (readLM h)).foldl
            (fun m lm => aset m lm.line_no lm) [])).map Prod.snd)
        matchCount := (readSR h aR).matchCount + (readSR h bR).matchCount } := rfl
  rw [hLHS, hRHS]
  have hlms : refs.map (readLM hm2.1) = isortLe lmLe ((mval hm2.1 hm2.2).map Prod.snd) := by
    rw [hrefs]
    rw [show (fun r1 r2 => decide ((readLM hm2.1 r1).line_no ≤ (readLM hm2.1 r2).line_no)) =
      (fun r1 r2 => lmLe (readLM hm2.1 r1) (readLM hm2.1 r2)) from rfl]
    rw [isortLe_map (readLM hm2.1) lmLe (hm2.2.map Prod.snd)]
    rw [map_snd_mval]
  simp only [SearchResult.mk.injEq]
  refine ⟨trivial, trivial, ?_, trivial⟩
  rw [hlms, hmv2]

/-- **C10, witness.** No mutation on a concrete four-cell heap. -/
theorem c10_combine_with_no_mutation_witness :
    readSR (combineWithH
        ⟨[(0, ⟨1, strToL "x", [(0, 1)]⟩), (1, ⟨2, strToL "y", [(1, 2)]⟩)],
         [(2, ⟨strToL "T", [(0, 1)], [0], 2⟩), (3, ⟨strToL "T", [], [1], 1⟩)], 4⟩ 2 3).1 2 =
      readSR ⟨[(0, ⟨1, strToL "x", [(0, 1)]⟩), (1, ⟨2, strToL "y", [(1, 2)]⟩)],
         [(2, ⟨strToL "T", [(0, 1)], [0], 2⟩), (3, ⟨strToL "T", [], [1], 1⟩)], 4⟩ 2 :=
  (c10_combine_with_no_mutation
    ⟨[(0, ⟨1, strToL "x", [(0, 1)]⟩), (1, ⟨2, strToL "y", [(1, 2)]⟩)],
     [(2, ⟨strToL "T", [(0, 1)], [0], 2⟩), (3, ⟨strToL "T", [], [1], 1⟩)], 4⟩ 2 3
    (by decide) (by decide) (by decide) (by decide)).1

end Part12
